import Mathlib

/-!
Verification of the contact-extraction and aggregation pipeline of
`trajectories.py` (molecular-dynamics trajectory analysis).

The Python source is shallowly embedded: pure transformations become Lean
functions, the pandas tables become lists of rows/columns, fatal exits and
raised exceptions become `Except` values, and machine floats are modelled by
exact rationals (`ℚ`) — none of the verified claims depends on float rounding.
Python's `re.search` on the three fixed patterns used by the script is
modelled by specialised backtracking matchers with Python's leftmost /
greedy-with-backtracking preference.  `\d` is modelled as an ASCII digit
(all inputs produced by the pipeline are ASCII).
-/

deriving instance DecidableEq for Except

/-- ASCII digit test, modelling `\d` of the Python regexes. -/
def isDigitChar (c : Char) : Bool := c.isDigit

/-- Value of a digit string, modelling Python `int()` on a `\d+` group
(leading zeros allowed). -/
def digitsToNat (cs : List Char) : Nat :=
  cs.foldl (fun n c => 10 * n + (c.toNat - 48)) 0

/-- Model of `re.compile("(\\D{3})(\\d+).+-(\\D{3})(\\d+)")`, the
residue-pair naming pattern `pattern_contact` of `trajectories.py`
(line 621): tail matcher for `-(\D{3})(\d+)` at the start of `v`
(the final `\d+` is greedy and maximal since the pattern ends there). -/
def matchDashResDigits (v : List Char) : Option (String × String) :=
  match v with
  | '-' :: c1 :: c2 :: c3 :: rest =>
    if isDigitChar c1 || isDigitChar c2 || isDigitChar c3 then none
    else
      let ds := rest.takeWhile isDigitChar
      if ds.isEmpty then none else some (String.mk [c1, c2, c3], String.mk ds)
  | _ => none

/-- `.+-(\D{3})(\d+)` at the start of `u`: `.+` takes `j ≥ 1` characters
(no newline), greedily preferring the longest `j`. -/
def matchDotPlusTail (u : List Char) : Option (String × String) :=
  (List.range u.length).reverse.findSome? (fun jm1 =>
    let j := jm1 + 1
    if (u.take j).all (fun c => c ≠ '\n') then matchDashResDigits (u.drop j)
    else none)

/-- `(\D{3})(\d+).+-(\D{3})(\d+)` anchored at the start of `t`:
the first `\d+` greedily prefers the longest digit run, backtracking to
shorter ones. -/
def matchContactAt (t : List Char) : Option (String × String × String × String) :=
  match t with
  | c1 :: c2 :: c3 :: rest =>
    if isDigitChar c1 || isDigitChar c2 || isDigitChar c3 then none
    else
      let ds := rest.takeWhile isDigitChar
      (List.range ds.length).reverse.findSome? (fun km1 =>
        let k := km1 + 1
        (matchDotPlusTail (rest.drop k)).map (fun g34 =>
          (String.mk [c1, c2, c3], String.mk (ds.take k), g34.1, g34.2)))
  | _ => none

/-- `pattern_contact.search(s)`: leftmost starting position wins.
Returns the four capture groups (donor residue, donor position digits,
acceptor residue, acceptor position digits). -/
def patternContact (s : String) : Option (String × String × String × String) :=
  (List.range (s.data.length + 1)).findSome? (fun i => matchContactAt (s.data.drop i))

/-- `:(\d+)-(\d+)` anchored at the start of `t` (`check_limits`, line 90).
Each `\d+` is a maximal digit run: a shorter run would be followed by a
digit, never by the required `-`, so no backtracking is needed. -/
def matchMaskAt (t : List Char) : Option (Nat × Nat) :=
  match t with
  | ':' :: rest =>
    let d1 := rest.takeWhile isDigitChar
    if d1.isEmpty then none
    else
      match rest.drop d1.length with
      | '-' :: rest2 =>
        let d2 := rest2.takeWhile isDigitChar
        if d2.isEmpty then none else some (digitsToNat d1, digitsToNat d2)
      | _ => none
  | _ => none

/-- `(\d+)-(\d+)` anchored at the start of `t` (`check_limits`, line 99). -/
def matchRoiAt (t : List Char) : Option (Nat × Nat) :=
  let d1 := t.takeWhile isDigitChar
  if d1.isEmpty then none
  else
    match t.drop d1.length with
    | '-' :: rest2 =>
      let d2 := rest2.takeWhile isDigitChar
      if d2.isEmpty then none else some (digitsToNat d1, digitsToNat d2)
    | _ => none

/-- `pattern_mask.search(mask)`. -/
def searchMask (s : String) : Option (Nat × Nat) :=
  (List.range (s.data.length + 1)).findSome? (fun i => matchMaskAt (s.data.drop i))

/-- `pattern_roi.search(roi)`. -/
def searchRoi (s : String) : Option (Nat × Nat) :=
  (List.range (s.data.length + 1)).findSome? (fun i => matchRoiAt (s.data.drop i))

/-- Min/max bounds parsed from a mask or ROI string. -/
structure Bounds where
  min : Nat
  max : Nat
deriving DecidableEq, Repr

/-- Result of `check_limits`: the two optional sub-structures of the
returned `limits` dict (`{}` is modelled as `none`). -/
structure Limits where
  mask : Option Bounds
  roi : Option Bounds
deriving DecidableEq, Repr

/-- The two `argparse.ArgumentTypeError` classes of failure raised by
`check_limits`. -/
inductive LimitsError where
  | invalidFormat
  | outOfRange
deriving DecidableEq, Repr

/-- Python truthiness of an optional string argument: `if mask:` is false
for `None` and for the empty string. -/
def truthy : Option String → Bool
  | none => false
  | some s => !s.isEmpty

/-- `check_limits(mask, roi)` (`trajectories.py` lines 76-118): validate the
mask and region-of-interest strings and check the ROI nests inside the mask. -/
def check_limits (mask roi : Option String) : Except LimitsError Limits :=
  let maskStep : Except LimitsError (Option Bounds) :=
    if truthy mask then
      match searchMask (mask.getD "") with
      | some mm => .ok (some ⟨mm.1, mm.2⟩)
      | none => .error .invalidFormat
    else .ok none
  match maskStep with
  | .error e => .error e
  | .ok mb =>
    let roiStep : Except LimitsError (Option Bounds) :=
      if truthy roi then
        match searchRoi (roi.getD "") with
        | some rr => .ok (some ⟨rr.1, rr.2⟩)
        | none => .error .invalidFormat
      else .ok none
    match roiStep with
    | .error e => .error e
    | .ok rb =>
      if truthy mask ∧ truthy roi then
        match mb, rb with
        | some m, some r =>
          if m.min + r.min ≥ m.max then .error .outOfRange
          else if m.min + r.max ≥ m.max then .error .outOfRange
          else .ok ⟨mb, rb⟩
        | _, _ => .ok ⟨mb, rb⟩
      else .ok ⟨mb, rb⟩

/-- Code-point lexicographic comparison on character lists, modelling
Python `str` ordering (`≤`); written by structural recursion so it
evaluates in the kernel. -/
def charsLe : List Char → List Char → Bool
  | [], _ => true
  | _ :: _, [] => false
  | a :: as, b :: bs =>
    if a.toNat < b.toNat then true
    else if b.toNat < a.toNat then false
    else charsLe as bs

/-- Python string `≤` (used to model `sorted` on contact names). -/
def pyStrLe (s t : String) : Prop := charsLe s.data t.data = true

instance : DecidableRel pyStrLe := fun s t => by
  unfold pyStrLe; infer_instance

/-- `tmp[key1][key2].append(contact_name)` for the inner dict of
`sort_contacts`, modelled as an insertion-ordered association list. -/
def bucketInsert (b : List (Nat × List String)) (a : Nat) (nm : String) :
    List (Nat × List String) :=
  match b with
  | [] => [(a, [nm])]
  | (a', ns) :: rest =>
    if a' = a then (a', ns ++ [nm]) :: rest else (a', ns) :: bucketInsert rest a nm

/-- Insertion into the nested dict `tmp` of `sort_contacts` (lines 199-205). -/
def tmpInsert (t : List (Nat × List (Nat × List String))) (d a : Nat) (nm : String) :
    List (Nat × List (Nat × List String)) :=
  match t with
  | [] => [(d, [(a, [nm])])]
  | (d', b) :: rest =>
    if d' = d then (d', bucketInsert b a nm) :: rest else (d', b) :: tmpInsert rest d a nm

/-- First loop of `sort_contacts` (lines 193-208): `"frames"` names are
appended to `ordered` directly, matching names are filed into `tmp` under
`(int(group(2)), int(group(4)))`, and a name that fails the pattern causes
`sys.exit(1)`, modelled as `.error ()`. -/
def sortBuild : List String → List String × List (Nat × List (Nat × List String)) →
    Except Unit (List String × List (Nat × List (Nat × List String)))
  | [], acc => .ok acc
  | nm :: rest, (o, t) =>
    if nm = "frames" then sortBuild rest (o ++ [nm], t)
    else
      match patternContact nm with
      | some g =>
        sortBuild rest (o, tmpInsert t (digitsToNat g.2.1.data) (digitsToNat g.2.2.2.data) nm)
      | none => .error ()

/-- `for key2 in sorted(tmp[key1]): for contact_name in sorted(...)`:
the inner two levels of the emission loop (lines 210-213). -/
def bucketNames (b : List (Nat × List String)) : List String :=
  (List.insertionSort (· ≤ ·) (b.map Prod.fst)).flatMap (fun a =>
    List.insertionSort pyStrLe ((b.lookup a).getD []))

/-- `for key1 in sorted(tmp): ...` — outer level of the emission loop. -/
def tmpFlatten (t : List (Nat × List (Nat × List String))) : List String :=
  (List.insertionSort (· ≤ ·) (t.map Prod.fst)).flatMap (fun d =>
    bucketNames ((t.lookup d).getD []))

/-- `sort_contacts(contact_names, pattern)` (lines 180-215). -/
def sort_contacts (names : List String) : Except Unit (List String) :=
  match sortBuild names ([], []) with
  | .error e => .error e
  | .ok (o, t) => .ok (o ++ tmpFlatten t)

/-- A column of the per-frame contacts dataframe: the `"frames"` index
column or a per-frame distance series. -/
inductive ColVal where
  | frames (v : List Nat)
  | dist (v : List ℚ)
deriving DecidableEq, Repr

/-- `sys.exit` outcomes of the extraction stage: `exit0` is the clean stop
when no contact survives (line 273), `exit1` the fatal pattern-mismatch
exit inside `sort_contacts` (line 208). -/
inductive ExitCode where
  | exit0
  | exit1
deriving DecidableEq, Repr

/-- `pct_contacts` (line 253-255): percentage of frames in the second half
of the series (`int(len/2)` onward) whose distance is at most the
threshold.  Python raises `ZeroDivisionError` on an empty series; the model
totalises via `ℚ` division (`x / 0 = 0`), and every claim about this value
assumes a non-empty series. -/
def pct_contacts (distThr : ℚ) (d : List ℚ) : ℚ :=
  let secondHalf := d.drop (d.length / 2)
  (secondHalf.countP (fun x => decide (x ≤ distThr)) : ℚ) / (secondHalf.length : ℚ) * 100

/-- Line 256: a candidate is retained iff `pct_contacts >= contacts_frame_thr_2nd_half`. -/
def keep_contact (distThr occThr : ℚ) (d : List ℚ) : Bool :=
  decide (occThr ≤ pct_contacts distThr d)

/-- The candidate-filtering loop of `hydrogen_bonds` (lines 244-263);
returns (intra-residue discard count, occupancy discard count, retained
`(key, series)` columns in insertion order).  `idx` indexes the `dist`
matrix and advances for every entry except the aggregate
`"total_solute_hbonds"`; a key that fails the pattern is skipped without
touching either discard counter.  Python would raise `IndexError` if `dist`
were shorter than the candidate list; the model totalises with `getD`. -/
def hbScan (distThr occThr : ℚ) (dist : List (List ℚ)) :
    List String → Nat → Nat × Nat × List (String × List ℚ)
  | [], _ => (0, 0, [])
  | key :: rest, idx =>
    if key = "total_solute_hbonds" then hbScan distThr occThr dist rest idx
    else
      match patternContact key with
      | some g =>
        if g.2.1 = g.2.2.2 then
          let r := hbScan distThr occThr dist rest (idx + 1)
          (r.1 + 1, r.2.1, r.2.2)
        else
          let d := dist.getD idx []
          if keep_contact distThr occThr d then
            let r := hbScan distThr occThr dist rest (idx + 1)
            (r.1, r.2.1, (key, d) :: r.2.2)
          else
            let r := hbScan distThr occThr dist rest (idx + 1)
            (r.1, r.2.1 + 1, r.2.2)
      | none => hbScan distThr occThr dist rest (idx + 1)

/-- `hydrogen_bonds(traj, dist_thr, contacts_frame_thr_2nd_half, pattern_hb)`
(lines 218-279).  `hbKeys` is the list of keys of `h_bonds.data` (the
aggregate `"total_solute_hbonds"` entry included), `dist` the per-candidate
distance matrix, `nFrames` the frame count.  The zero-survivor stop is
`.error .exit0`; a pattern mismatch inside `sort_contacts` would be
`.error .exit1`.  The returned columns model the dataframe reindexed by
`ordered_columns` (lines 275-277). -/
def hydrogen_bonds (distThr occThr : ℚ) (hbKeys : List String) (dist : List (List ℚ))
    (nFrames : Nat) : Except ExitCode (List (String × ColVal)) :=
  let scan := hbScan distThr occThr dist hbKeys 0
  let nbTotal : Int := (hbKeys.length : Int) - 1
  let nbUsed : Int := nbTotal - scan.1 - scan.2.1
  if nbUsed = 0 then .error .exit0
  else
    let dict : List (String × ColVal) :=
      ("frames", .frames (List.range nFrames)) :: scan.2.2.map (fun c => (c.1, .dist c.2))
    match sort_contacts (dict.map Prod.fst) with
    | .error _ => .error .exit1
    | .ok ordered => .ok (ordered.map (fun nm => (nm, (dict.lookup nm).getD (.dist []))))

/-- A cell of the `data` dict built by `contacts_csv`: parsed name/position
strings or rounded distance statistics. -/
inductive Cell where
  | s (v : String)
  | q (v : ℚ)
deriving DecidableEq, Repr

/-- Python `KeyError`, raised by `data[k].append(...)` when `k` is not a key
of the dict. -/
inductive CsvError where
  | keyError
deriving DecidableEq, Repr

/-- `data[k].append(v)` on the `data` dict of `contacts_csv`: appends to the
list stored under `k`, or raises `KeyError` when the dict has no key `k`. -/
def dataAppend (d : List (String × List Cell)) (k : String) (v : Cell) :
    Except CsvError (List (String × List Cell)) :=
  if (d.lookup k).isSome then
    .ok (d.map (fun kv => if kv.1 = k then (kv.1, kv.2 ++ [v]) else kv))
  else .error .keyError

/-- The `data` dict literal of `contacts_csv` (lines 339-347).  Note the
key is `"acceptor residue"` with a space. -/
def csvInitData : List (String × List Cell) :=
  [("contact", []), ("donor position", []), ("donor residue", []),
   ("acceptor position", []), ("acceptor residue", []),
   ("2nd_half_MD_mean_distance", []), ("2nd_half_MD_median_distance", []),
   ("whole_MD_mean_distance", []), ("whole_MD_median_distance", [])]

/-- `statistics.mean`; Python raises `StatisticsError` on an empty list,
which the model totalises to `0` (no claim depends on the empty case). -/
def meanQ (l : List ℚ) : ℚ := l.sum / l.length

/-- `statistics.median`: middle of the sorted data, or the average of the
two middle values for even length; totalised to `0` on the empty list. -/
def medianQ (l : List ℚ) : ℚ :=
  let s := List.insertionSort (· ≤ ·) l
  let n := s.length
  if n = 0 then 0
  else if n % 2 = 1 then s.getD (n / 2) 0
  else (s.getD (n / 2 - 1) 0 + s.getD (n / 2) 0) / 2

/-- Python `round(x, 2)`.  Python rounds binary floats half-to-even; the
model rounds the exact rational to the nearest hundredth (`round` rounds
halves up).  The two agree except on exact-half ties, which no claim
exercises. -/
def round2 (x : ℚ) : ℚ := (round (x * 100) : ℚ) / 100

/-- Values of a dataframe column as rationals. -/
def colValues : ColVal → List ℚ
  | .frames v => v.map (fun n => (n : ℚ))
  | .dist v => v

/-- Loop body of `contacts_csv` (lines 350-366) over the contact columns
(`df.columns[1:]`): `nHalf` is `int(len(df.index)/2)`, the start row of the
second half.  On a pattern mismatch the code appends `"not found"` to
`"donor position"`, `"donor residue"` and `"acceptor position"`, then
executes `data["acceptor_residue"].append("not found")` (line 362) — a key
with an underscore that the dict does not contain, so Python raises
`KeyError` there. -/
def contactsCsvFold (nHalf : Nat) :
    List (String × ColVal) → List (String × List Cell) →
    Except CsvError (List (String × List Cell))
  | [], d => .ok d
  | (nm, col) :: rest, d => do
    let d ← dataAppend d "contact" (.s nm)
    let d ← (match patternContact nm with
      | some g => do
        let d ← dataAppend d "donor position" (.s g.2.1)
        let d ← dataAppend d "donor residue" (.s g.1)
        let d ← dataAppend d "acceptor position" (.s g.2.2.2)
        let d ← dataAppend d "acceptor residue" (.s g.2.2.1)
        pure d
      | none => do
        let d ← dataAppend d "donor position" (.s "not found")
        let d ← dataAppend d "donor residue" (.s "not found")
        let d ← dataAppend d "acceptor position" (.s "not found")
        let d ← dataAppend d "acceptor_residue" (.s "not found")
        pure d)
    let vals := colValues col
    let d ← dataAppend d "2nd_half_MD_mean_distance" (.q (round2 (meanQ (vals.drop nHalf))))
    let d ← dataAppend d "2nd_half_MD_median_distance" (.q (round2 (medianQ (vals.drop nHalf))))
    let d ← dataAppend d "whole_MD_mean_distance" (.q (round2 (meanQ vals)))
    let d ← dataAppend d "whole_MD_median_distance" (.q (round2 (medianQ vals)))
    contactsCsvFold nHalf rest d

/-- Number of rows of the contacts dataframe (`len(df.index)`). -/
def dfRowCount (df : List (String × ColVal)) : Nat :=
  match df with
  | [] => 0
  | c :: _ => (colValues c.2).length

/-- `contacts_csv(df, ...)` (lines 321-372), the statistics step: one
`data` entry per contact column of `df` (the first, `"frames"`, column is
skipped).  Returns the column-oriented `data` dict of the statistics table. -/
def contacts_csv (df : List (String × ColVal)) :
    Except CsvError (List (String × List Cell)) :=
  contactsCsvFold (dfRowCount df / 2) df.tail csvInitData

/-- A row of the ContactStats table as written by `contacts_csv`: the
position columns hold the digit strings captured by the naming pattern. -/
structure StatsRow where
  contact : String
  donorPosition : String
  donorResidue : String
  acceptorPosition : String
  acceptorResidue : String
  sndHalfMeanDistance : ℚ
  sndHalfMedianDistance : ℚ
  wholeMeanDistance : ℚ
  wholeMedianDistance : ℚ
deriving DecidableEq, Repr

/-- A ContactStats row after `pd.to_numeric` has coerced the two position
columns (lines 391-393). -/
structure NumRow where
  contact : String
  donorPosition : Nat
  donorResidue : String
  acceptorPosition : Nat
  acceptorResidue : String
  sndHalfMeanDistance : ℚ
  sndHalfMedianDistance : ℚ
  wholeMeanDistance : ℚ
  wholeMedianDistance : ℚ
deriving DecidableEq, Repr

/-- The four distance-statistics columns (`stats.columns[5:]`, line 637) a
heat map can reduce on. -/
inductive DistCol where
  | sndMean
  | sndMedian
  | wholeMean
  | wholeMedian
deriving DecidableEq, Repr

/-- `row[dist_col]` for a coerced row. -/
def getDistCol (r : NumRow) : DistCol → ℚ
  | .sndMean => r.sndHalfMeanDistance
  | .sndMedian => r.sndHalfMedianDistance
  | .wholeMean => r.wholeMeanDistance
  | .wholeMedian => r.wholeMedianDistance

/-- `pd.to_numeric` on one cell.  The position columns produced by the
pipeline hold decimal digit strings; any other value (such as the
`"not found"` placeholder) raises `ValueError`, modelled as `none`. -/
def toNumericNat (s : String) : Option Nat :=
  if s.data.isEmpty then none
  else if s.data.all isDigitChar then some (digitsToNat s.data) else none

/-- `ValueError` outcomes of `reduce_contacts_dataframe`: an unparseable
position cell in `pd.to_numeric`, or the length mismatch raised by
`df["number contacts"] = donor_acceptor_nb_contacts` when the list length
differs from the row count. -/
inductive PdError where
  | toNumeric
  | lengthMismatch
deriving DecidableEq, Repr

/-- Coerce one row's position columns (lines 391-393). -/
def coerceRow (r : StatsRow) : Option NumRow := do
  let dp ← toNumericNat r.donorPosition
  let ap ← toNumericNat r.acceptorPosition
  some ⟨r.contact, dp, r.donorResidue, ap, r.acceptorResidue, r.sndHalfMeanDistance,
    r.sndHalfMedianDistance, r.wholeMeanDistance, r.wholeMedianDistance⟩

/-- ROI row selection (lines 395-396): when ROI limits were set, keep rows
whose donor position is `between(min, max)` — pandas `between` includes
both endpoints; when the `limits["roi"]` dict is empty (falsy), the step
is skipped. -/
def roiFilter (roi : Option Bounds) (rows : List (Nat × NumRow)) : List (Nat × NumRow) :=
  match roi with
  | some r => rows.filter (fun p => r.min ≤ p.2.donorPosition && p.2.donorPosition ≤ r.max)
  | none => rows

/-- `f"{row['donor position']}{row['donor residue']}_{...}"` — the
donor-acceptor combination string registered in `donors_acceptors`
(lines 403-405). -/
def rowKey (r : NumRow) : String :=
  toString r.donorPosition ++ r.donorResidue ++ "_" ++
    toString r.acceptorPosition ++ r.acceptorResidue

/-- The (donor position, acceptor position) pair of a row. -/
def pairOf (p : Nat × NumRow) : Nat × Nat :=
  (p.2.donorPosition, p.2.acceptorPosition)

/-- `tmp_df[[dist_col]].idxmin()` (line 410): the index label of the first
row attaining the minimal value of the metric column. -/
def firstMinIdx (c : DistCol) : List (Nat × NumRow) → Nat
  | [] => 0
  | (i, r) :: rest =>
    (rest.foldl
      (fun best p => if getDistCol p.2 c < best.2 then (p.1, getDistCol p.2 c) else best)
      (i, getDistCol r c)).1

/-- The `for _, row in df.iterrows()` loop of `reduce_contacts_dataframe`
(lines 399-415): `full` is the (ROI-filtered) dataframe the loop re-queries
with `df[...]`, the second list argument the rows still to visit, `seen`
the `donors_acceptors` register.  Returns the accumulated `idx_to_remove`
labels and `donor_acceptor_nb_contacts` counts, each in emission order. -/
def reduceLoop (c : DistCol) (full : List (Nat × NumRow)) :
    List (Nat × NumRow) → List String → List Nat × List Nat
  | [], _ => ([], [])
  | (_i, r) :: rest, seen =>
    let key := rowKey r
    if seen.contains key then reduceLoop c full rest seen
    else
      let tmp := full.filter (fun p =>
        p.2.donorPosition == r.donorPosition && p.2.acceptorPosition == r.acceptorPosition)
      let im := firstMinIdx c tmp
      let rem := (tmp.map Prod.fst).filter (fun j => j ≠ im)
      let rec' := reduceLoop c full rest (seen ++ [key])
      (rem ++ rec'.1, tmp.length :: rec'.2)

/-- Rows surviving `df.drop(idx_to_remove)` plus the positional assignment
`df["number contacts"] = donor_acceptor_nb_contacts` (lines 416-417): the
i-th surviving row (in index order) receives the i-th count; pandas raises
`ValueError` when the lengths differ. -/
def reduceRows (c : DistCol) (dfr : List (Nat × NumRow)) :
    Except PdError (List (Nat × NumRow × Nat)) :=
  let lr := reduceLoop c dfr dfr []
  let remaining := dfr.filter (fun p => !(lr.1.contains p.1))
  if remaining.length = lr.2.length then
    .ok ((remaining.zip lr.2).map (fun z => (z.1.1, z.1.2, z.2)))
  else .error .lengthMismatch

/-- The two `pd.to_numeric` column coercions (lines 391-393) over the whole
table; `none` models the `ValueError` Python raises on an unparseable cell. -/
def coerceTable : List (Nat × StatsRow) → Option (List (Nat × NumRow))
  | [] => some []
  | p :: rest => do
    let nr ← coerceRow p.2
    let rest' ← coerceTable rest
    some ((p.1, nr) :: rest')

/-- `reduce_contacts_dataframe(df, dist_col, limits_roi)` (lines 375-418).
The first component of the result is the caller-visible dataframe after
the call: the two in-place `pd.to_numeric` column assignments mutate the
caller's table, while the subsequent filter / drop / column insertion all
rebind the local name to fresh frames.  The second component is the reduced
table with the `"number contacts"` column. -/
def reduce_contacts_dataframe (df : List (Nat × StatsRow)) (c : DistCol)
    (roi : Option Bounds) :
    Except PdError (List (Nat × NumRow) × List (Nat × NumRow × Nat)) :=
  match coerceTable df with
  | none => .error .toNumeric
  | some coerced =>
    match reduceRows c (roiFilter roi coerced) with
    | .error e => .error e
    | .ok reduced => .ok (coerced, reduced)

/-- Position label adjustment of `get_df_distances_nb_contacts`
(lines 443, 448): `p + limits_mask['min'] - 1` when the mask limits dict is
truthy, else the raw position. -/
def adjusted_position (limitsMask : Option Bounds) (p : Nat) : Int :=
  match limitsMask with
  | some m => (p : Int) + m.min - 1
  | none => p

/-- `sorted(list(set(...)))` over a position column. -/
def uniqueSortedPositions (ps : List Nat) : List Nat :=
  List.insertionSort (· ≤ ·) ps.dedup

/-- Residue name looked up for a position:
`df.loc[(df['donor position'] == p), 'donor residue'].values[0]`, the
residue of the first row with that donor position (and likewise for
acceptors). -/
def firstResidue (cell : NumRow → Nat) (res : NumRow → String)
    (rows : List (Nat × NumRow)) (p : Nat) : String :=
  ((rows.find? (fun q => cell q.2 == p)).map (fun q => res q.2)).getD ""

/-- Heat-map axis label for one position: `f"{adjusted}{residue}"`. -/
def heatMapLabel (lm : Option Bounds) (res : String) (p : Nat) : String :=
  toString (adjusted_position lm p) ++ res

/-- `if donor not in donors: donors.append(donor)` (lines 445-446, 450-451). -/
def dedupAppend (a : List String) (s : String) : List String :=
  if a.contains s then a else a ++ [s]

/-- The donor label built for a donor position (lines 443-444). -/
def donorLabel (rows : List (Nat × NumRow)) (lm : Option Bounds) (dp : Nat) : String :=
  heatMapLabel lm
    (firstResidue (fun r => r.donorPosition) (fun r => r.donorResidue) rows dp) dp

/-- The acceptor label built for an acceptor position (lines 448-449). -/
def acceptorLabel (rows : List (Nat × NumRow)) (lm : Option Bounds) (ap : Nat) : String :=
  heatMapLabel lm
    (firstResidue (fun r => r.acceptorPosition) (fun r => r.acceptorResidue) rows ap) ap

/-- The donor and acceptor label lists built by the nested loops of
`get_df_distances_nb_contacts` (lines 438-451): each new label is appended
only if not already present; the acceptor loop runs once per donor
iteration, later passes adding nothing.  Only the index-label construction
of the function is embedded; the distance/count matrix cells are not needed
by any claim. -/
def heatMapLabels (rows : List (Nat × NumRow)) (lm : Option Bounds) :
    List String × List String :=
  let udp := uniqueSortedPositions (rows.map (fun p => p.2.donorPosition))
  let uap := uniqueSortedPositions (rows.map (fun p => p.2.acceptorPosition))
  udp.foldl
    (fun acc dp =>
      (dedupAppend acc.1 (donorLabel rows lm dp),
       uap.foldl (fun accA ap => dedupAppend accA (acceptorLabel rows lm ap)) acc.2))
    ([], [])

/-- ContactStats table used by the aggregator counterexample: two contacts
between residue pair (1, 2) — rows 0 and 2 — around a single contact of
pair (3, 4) at row 1. -/
def cexStats : List (Nat × StatsRow) :=
  [(0, ⟨"c0", "1", "ALA", "2", "GLY", 5, 5, 5, 5⟩),
   (1, ⟨"c1", "3", "VAL", "4", "SER", 1, 1, 1, 1⟩),
   (2, ⟨"c2", "1", "ALA", "2", "GLY", 2, 2, 2, 2⟩)]

/-- The coerced form of `cexStats`. -/
def cexNum : List (Nat × NumRow) :=
  [(0, ⟨"c0", 1, "ALA", 2, "GLY", 5, 5, 5, 5⟩),
   (1, ⟨"c1", 3, "VAL", 4, "SER", 1, 1, 1, 1⟩),
   (2, ⟨"c2", 1, "ALA", 2, "GLY", 2, 2, 2, 2⟩)]

/-- The spec's phrasing of the second half: the frames whose index runs
from `floor(n/2)` to the end (refinement-comparison definition, stated over
indices rather than `List.drop`). -/
def secondHalfSpec (d : List ℚ) : List ℚ :=
  ((List.range d.length).filter (fun i => decide (d.length / 2 ≤ i))).map
    (fun i => d.getD i 0)

/-- All contact names filed in the nested `tmp` dict. -/
def tmpNames (t : List (Nat × List (Nat × List String))) : List String :=
  t.flatMap (fun db => db.2.flatMap (fun ab => ab.2))

/-- The `(int(group(2)), int(group(4)))` sort key of a contact name. -/
def contactKeyPair (nm : String) : Option (Nat × Nat) :=
  (patternContact nm).map (fun g => (digitsToNat g.2.1.data, digitsToNat g.2.2.2.data))

/-- Well-formedness of the nested dict: both levels have duplicate-free
keys, as Python dicts do. -/
def TmpWF (t : List (Nat × List (Nat × List String))) : Prop :=
  (t.map Prod.fst).Nodup ∧ ∀ p ∈ t, (p.2.map Prod.fst).Nodup

/-- Per-bucket key discipline: names filed under `(d, a)` carry exactly the
`(int(group(2)), int(group(4)))` key used to insert them. -/
def TmpKeyed (t : List (Nat × List (Nat × List String))) : Prop :=
  ∀ db ∈ t, ∀ ab ∈ db.2, ∀ nm ∈ ab.2, contactKeyPair nm = some (db.1, ab.1)

/-- The `(donor position, acceptor position)` integer sort key of a contact
name (`(0, 0)` for a non-matching name, which never occurs among sorted
columns). -/
def contactSortKey (nm : String) : Nat × Nat := (contactKeyPair nm).getD (0, 0)

/-- The column order of C8: donor position ascending, then acceptor
position ascending, then name ascending (code-point order, as Python
`sorted` compares strings). -/
def contactLe (x y : String) : Prop :=
  (contactSortKey x).1 < (contactSortKey y).1 ∨
    ((contactSortKey x).1 = (contactSortKey y).1 ∧
      ((contactSortKey x).2 < (contactSortKey y).2 ∨
        ((contactSortKey x).2 = (contactSortKey y).2 ∧ pyStrLe x y)))

/-- First occurrences of a list's elements, in order (fuelled so that it
computes by structural recursion). -/
def firstSeenAux {β : Type} [BEq β] : Nat → List β → List β
  | 0, _ => []
  | _, [] => []
  | fuel + 1, b :: rest => b :: firstSeenAux fuel (rest.filter (fun x => !(x == b)))

/-- First occurrences of a list's elements, in order. -/
def firstSeen {β : Type} [BEq β] (l : List β) : List β := firstSeenAux l.length l

/-- Modelled from the spec: keep the row with the minimal value in the
metric column, first occurrence on ties. -/
def keepMinRow (c : DistCol) (g : List (Nat × NumRow)) : Option (Nat × NumRow) :=
  g.find? (fun p => decide (∀ q ∈ g, getDistCol p.2 c ≤ getDistCol q.2 c))

/-- Modelled from the spec (§4.6): one output row per unique
(donor position, acceptor position) pair in first-seen order, keeping the
first minimal-metric row of the group and attaching the group's row count
as "number of contacts". -/
def aggregateSpec (c : DistCol) (rows : List (Nat × NumRow)) : List (Nat × NumRow × Nat) :=
  (firstSeen (rows.map pairOf)).filterMap (fun pr =>
    (keepMinRow c (rows.filter (fun p => pairOf p == pr))).map
      (fun q => (q.1, q.2, (rows.filter (fun p => pairOf p == pr)).length)))

/-- Non-strict lexicographic order on position pairs: the order the sorted
ContactStats table of this pipeline satisfies. -/
def pairLe (x y : Nat × Nat) : Prop := x.1 < y.1 ∨ (x.1 = y.1 ∧ x.2 ≤ y.2)

instance : DecidableRel pairLe := fun x y => by
  unfold pairLe; infer_instance

/-- Concrete sorted three-row input used to witness the aggregation theorem. -/
def wRows : List (Nat × NumRow) :=
  [(0, ⟨"c1", 1, "ALA", 2, "GLY", 2, 2, 2, 2⟩),
   (1, ⟨"c2", 1, "ALA", 2, "GLY", 1, 1, 1, 1⟩),
   (2, ⟨"c3", 3, "VAL", 4, "SER", 5, 5, 5, 5⟩)]

/-! ## Model validation checks: the embedding on concrete inputs -/

/-- A singleton distance series at or under the threshold has 100%
second-half occupancy, hence survives any occupancy threshold ≤ 100. -/
theorem keep_contact_single {distThr occThr x : ℚ} (hx : x ≤ distThr) (hocc : occThr ≤ 100) :
    keep_contact distThr occThr [x] = true := by
  unfold keep_contact pct_contacts
  simp [hx]
  exact hocc

theorem hydrogen_bonds_check_skip : hydrogen_bonds 3 20 ["total_solute_hbonds", "nomatch", "ALA1-X-GLY2"] [[1], [1]] 1 =
    .ok [("frames", .frames [0]), ("ALA1-X-GLY2", .dist [1])] := by
  have hk : keep_contact 3 20 [1] = true :=
    keep_contact_single (by norm_num) (by norm_num)
  simp only [hydrogen_bonds, hbScan]
  norm_num [hk]
  decide

theorem hydrogen_bonds_check_zero_pad : hydrogen_bonds 3 20 ["total_solute_hbonds", "ALA01-H-ALA1"] [[1]] 1 =
    .ok [("frames", .frames [0]), ("ALA01-H-ALA1", .dist [1])] := by
  have hk : keep_contact 3 20 [1] = true :=
    keep_contact_single (by norm_num) (by norm_num)
  simp only [hydrogen_bonds, hbScan]
  norm_num [hk]
  decide

theorem hydrogen_bonds_check_order : hydrogen_bonds 3 20 ["total_solute_hbonds", "GLU2-X-ALA1", "ALA1-X-GLU2"] [[1], [1]] 1 =
    .ok [("frames", .frames [0]), ("ALA1-X-GLU2", .dist [1]), ("GLU2-X-ALA1", .dist [1])] := by
  have hk : keep_contact 3 20 [1] = true :=
    keep_contact_single (by norm_num) (by norm_num)
  simp only [hydrogen_bonds, hbScan]
  norm_num [hk]
  decide

theorem contacts_csv_check_keyerror : contacts_csv [("frames", .frames [0, 1]), ("nomatch", .dist [1, 2])] =
    .error .keyError := by decide

theorem reduce_contacts_dataframe_check_unsorted : reduce_contacts_dataframe cexStats .sndMean none =
    .ok (cexNum,
      [(1, ⟨"c1", 3, "VAL", 4, "SER", 1, 1, 1, 1⟩, 2),
       (2, ⟨"c2", 1, "ALA", 2, "GLY", 2, 2, 2, 2⟩, 1)]) := by decide

theorem heatMapLabels_check_mask : heatMapLabels [(5, ⟨"c", 1, "ALA", 2, "GLY", 1, 1, 1, 1⟩)] (some ⟨682, 850⟩) =
    (["682ALA"], ["683GLY"]) := by decide

theorem heatMapLabels_check_nomask : heatMapLabels [(5, ⟨"c", 1, "ALA", 2, "GLY", 1, 1, 1, 1⟩)] none =
    (["1ALA"], ["2GLY"]) := by decide

theorem check_limits_check_ok : check_limits (some ":682-850") (some "35-39") =
    .ok ⟨some ⟨682, 850⟩, some ⟨35, 39⟩⟩ := by decide

theorem check_limits_check_range : check_limits (some ":682-850") (some "170-200") = .error .outOfRange := by decide

theorem check_limits_check_format : check_limits (some "682-850") none = .error .invalidFormat := by decide

theorem check_limits_check_empty : check_limits (some "") none = .ok ⟨none, none⟩ := by decide

theorem patternContact_check_match : patternContact "ALA1-X-GLY2" = some ("ALA", "1", "GLY", "2") := by decide

theorem patternContact_check_zero_pad : patternContact "ALA01-H-ALA1" = some ("ALA", "01", "ALA", "1") := by decide

theorem patternContact_check_frames : patternContact "frames" = none := by decide

theorem patternContact_check_nomatch : patternContact "nomatch" = none := by decide

/-! ## Shared helper lemmas -/

theorem lookup_mem {α β : Type} [BEq α] [LawfulBEq α] {l : List (α × β)} {k : α} {v : β}
    (h : l.lookup k = some v) : (k, v) ∈ l := by
  induction l with
  | nil => simp [List.lookup] at h
  | cons p rest ih =>
    rw [List.lookup] at h
    by_cases hk : k == p.1
    · simp [hk] at h
      have : k = p.1 := by exact eq_of_beq hk
      subst this
      simp [← h]
    · simp [hk] at h
      exact List.mem_cons_of_mem _ (ih h)

/-! ## C5 — Limits Parser characterization -/

/-- C5 (counterexample): the empty string is a supplied mask string that
does not match `:<digits>-<digits>`, yet `check_limits` succeeds without
`InvalidFormat`, because Python's `if mask:` treats the empty string as
absent. -/
theorem c5_empty_mask_supplied_cex :
    searchMask "" = none ∧ check_limits (some "") none = .ok ⟨none, none⟩ := by decide

/-- C5 (amended): for non-empty supplied strings (empty supplied strings
are treated as absent by Python truthiness), `check_limits` fails with
`InvalidFormat` exactly when the mask string has no `:<digits>-<digits>`
match or the ROI string has no `<digits>-<digits>` match; when both are
supplied non-empty and well-formed it fails with `OutOfRange` exactly when
`mask.min + roi.min >= mask.max` or `mask.min + roi.max >= mask.max`; and
for every well-formed pair satisfying the nesting invariant it returns the
parsed limits with no error. -/
theorem c5_check_limits_characterization (mask roi : Option String) :
    (check_limits mask roi = .error .invalidFormat ↔
      ((truthy mask = true ∧ searchMask (mask.getD "") = none) ∨
        (truthy roi = true ∧ searchRoi (roi.getD "") = none)))
    ∧ (∀ m r : Nat × Nat, truthy mask = true → truthy roi = true →
        searchMask (mask.getD "") = some m → searchRoi (roi.getD "") = some r →
        (check_limits mask roi = .error .outOfRange ↔
          (m.2 ≤ m.1 + r.1 ∨ m.2 ≤ m.1 + r.2)))
    ∧ (∀ m r : Nat × Nat, truthy mask = true → truthy roi = true →
        searchMask (mask.getD "") = some m → searchRoi (roi.getD "") = some r →
        m.1 + r.1 < m.2 → m.1 + r.2 < m.2 →
        check_limits mask roi = .ok ⟨some ⟨m.1, m.2⟩, some ⟨r.1, r.2⟩⟩) := by
  refine ⟨?_, ?_, ?_⟩
  · by_cases hm : truthy mask = true
    · rcases hsm : searchMask (mask.getD "") with _ | m
      · simp [check_limits, hm, hsm]
      · by_cases hr : truthy roi = true
        · rcases hsr : searchRoi (roi.getD "") with _ | r
          · simp [check_limits, hm, hsm, hr, hsr]
          · simp only [check_limits, hm, hsm, hr, hsr, if_true, and_true, true_and]
            by_cases h1 : m.1 + r.1 ≥ m.2
            · simp [h1, hm, hr]
            · by_cases h2 : m.1 + r.2 ≥ m.2 <;> simp [h1, h2, hm, hr]
        · simp [check_limits, hm, hr, hsm]
    · by_cases hr : truthy roi = true
      · rcases hsr : searchRoi (roi.getD "") with _ | r
        · simp [check_limits, hm, hr, hsr]
        · simp [check_limits, hm, hr, hsr]
      · simp [check_limits, hm, hr]
  · intro m r hm hr hsm hsr
    simp only [check_limits, hm, hsm, hr, hsr, if_true, and_true, true_and]
    by_cases h1 : m.1 + r.1 ≥ m.2
    · simp [h1]
    · by_cases h2 : m.1 + r.2 ≥ m.2
      · simp [h1, h2]
      · simp [h1, h2]
  · intro m r hm hr hsm hsr h1 h2
    have h1' : ¬(m.1 + r.1 ≥ m.2) := by omega
    have h2' : ¬(m.1 + r.2 ≥ m.2) := by omega
    simp [check_limits, hm, hsm, hr, hsr, h1', h2']

/-- C5 (witness): a concrete well-formed, correctly nested pair parses
without error. -/
theorem c5_check_limits_witness :
    check_limits (some ":5-10") (some "1-2") = .ok ⟨some ⟨5, 10⟩, some ⟨1, 2⟩⟩ :=
  (c5_check_limits_characterization (some ":5-10") (some "1-2")).2.2 (5, 10) (1, 2)
    (by decide) (by decide) (by decide) (by decide) (by decide) (by decide)

/-! ## C7 — ROI filtering of the Contact Aggregator -/

/-- C7: with ROI limits the aggregator's row-selection step keeps exactly
the rows whose donor position lies in the closed interval
`[roi.min, roi.max]`; with no ROI the step is the identity. -/
theorem c7_roi_filter_membership (rows : List (Nat × NumRow)) (b : Bounds) (x : Nat × NumRow) :
    (x ∈ roiFilter (some b) rows ↔
      x ∈ rows ∧ b.min ≤ x.2.donorPosition ∧ x.2.donorPosition ≤ b.max)
    ∧ roiFilter none rows = rows := by
  constructor
  · simp [roiFilter, List.mem_filter, and_assoc]
  · rfl

/-! ## C2 — statistics step on a naming-pattern mismatch -/

/-- C2 (code bug): for a contact column whose name fails the naming
pattern, `contacts_csv` does not record the four `"not found"` placeholders
and continue — line 362 appends to `data["acceptor_residue"]` (underscore)
while the dict key is `"acceptor residue"` (space), so the step raises
`KeyError` instead. -/
theorem c2_stats_mismatch_keyerror :
    patternContact "nomatch" = none ∧
    contacts_csv [("frames", .frames [0, 1]), ("nomatch", .dist [1, 2])] =
      .error .keyError ∧
    (csvInitData.lookup "acceptor_residue" = none ∧
      (csvInitData.lookup "acceptor residue").isSome = true) := by decide

/-! ## C10 — in-place coercion of the position columns -/

/-- C10: on any successful run, the caller-visible ContactStats table after
`reduce_contacts_dataframe` is the input table with the donor/acceptor
position columns coerced to numbers in place — row indices and every other
column are unchanged — so later consumers of the same table see numeric
position columns. -/
theorem c10_reduce_mutates_position_columns (df : List (Nat × StatsRow)) (c : DistCol)
    (roi : Option Bounds) (caller : List (Nat × NumRow)) (out : List (Nat × NumRow × Nat))
    (h : reduce_contacts_dataframe df c roi = .ok (caller, out)) :
    List.Forall₂ (fun (p : Nat × StatsRow) (q : Nat × NumRow) =>
      q.1 = p.1 ∧ q.2.contact = p.2.contact ∧ q.2.donorResidue = p.2.donorResidue ∧
      q.2.acceptorResidue = p.2.acceptorResidue ∧
      q.2.sndHalfMeanDistance = p.2.sndHalfMeanDistance ∧
      q.2.sndHalfMedianDistance = p.2.sndHalfMedianDistance ∧
      q.2.wholeMeanDistance = p.2.wholeMeanDistance ∧
      q.2.wholeMedianDistance = p.2.wholeMedianDistance ∧
      toNumericNat p.2.donorPosition = some q.2.donorPosition ∧
      toNumericNat p.2.acceptorPosition = some q.2.acceptorPosition) df caller := by
  have hc : coerceTable df = some caller := by
    unfold reduce_contacts_dataframe at h
    split at h
    · exact absurd h (by simp)
    · rename_i coerced hct
      split at h
      · exact absurd h (by simp)
      · simp only [Except.ok.injEq, Prod.mk.injEq] at h
        rw [hct, h.1]
  clear h
  induction df generalizing caller with
  | nil =>
    simp only [coerceTable, Option.some.injEq] at hc
    rw [← hc]
    exact List.Forall₂.nil
  | cons p rest ih =>
    simp only [coerceTable, Option.bind_eq_bind, Option.bind_eq_some] at hc
    obtain ⟨nr, hnr, rest', hrest', heq⟩ := hc
    obtain rfl : (p.1, nr) :: rest' = caller := by injection heq
    refine List.Forall₂.cons ?_ (ih rest' hrest')
    unfold coerceRow at hnr
    simp only [Option.bind_eq_bind, Option.bind_eq_some] at hnr
    obtain ⟨dp, hdp, ap, hap, hnr'⟩ := hnr
    simp only [Option.some.injEq] at hnr'
    subst hnr'
    exact ⟨rfl, rfl, rfl, rfl, rfl, rfl, rfl, rfl, hdp, hap⟩

/-- C10 (witness): the concrete three-row table of `cexStats` is returned
to the caller as `cexNum`, with only its position columns changed. -/
theorem c10_reduce_mutates_position_columns_witness :
    List.Forall₂ (fun (p : Nat × StatsRow) (q : Nat × NumRow) =>
      q.1 = p.1 ∧ q.2.contact = p.2.contact ∧ q.2.donorResidue = p.2.donorResidue ∧
      q.2.acceptorResidue = p.2.acceptorResidue ∧
      q.2.sndHalfMeanDistance = p.2.sndHalfMeanDistance ∧
      q.2.sndHalfMedianDistance = p.2.sndHalfMedianDistance ∧
      q.2.wholeMeanDistance = p.2.wholeMeanDistance ∧
      q.2.wholeMedianDistance = p.2.wholeMedianDistance ∧
      toNumericNat p.2.donorPosition = some q.2.donorPosition ∧
      toNumericNat p.2.acceptorPosition = some q.2.acceptorPosition) cexStats cexNum :=
  c10_reduce_mutates_position_columns cexStats .sndMean none cexNum
    [(1, ⟨"c1", 3, "VAL", 4, "SER", 1, 1, 1, 1⟩, 2),
     (2, ⟨"c2", 1, "ALA", 2, "GLY", 2, 2, 2, 2⟩, 1)] (by decide)

/-! ## C9 — heat-map label adjustment -/

theorem mem_foldl_dedupAppend {γ : Type} (f : γ → String) :
    ∀ (l : List γ) (acc : List String) (s : String),
      s ∈ l.foldl (fun a b => dedupAppend a (f b)) acc →
      s ∈ acc ∨ ∃ b ∈ l, s = f b := by
  intro l
  induction l with
  | nil => intro acc s h; exact Or.inl h
  | cons x xs ih =>
    intro acc s h
    simp only [List.foldl_cons] at h
    rcases ih _ s h with hacc | ⟨b, hb, rfl⟩
    · unfold dedupAppend at hacc
      by_cases hc : acc.contains (f x)
      · rw [if_pos hc] at hacc
        exact Or.inl hacc
      · rw [if_neg hc] at hacc
        rcases List.mem_append.mp hacc with h1 | h2
        · exact Or.inl h1
        · exact Or.inr ⟨x, List.mem_cons_self x xs, by simpa using h2⟩
    · exact Or.inr ⟨b, List.mem_cons_of_mem _ hb, rfl⟩

theorem mem_foldl_apply {γ : Type} (g : List String → List String) (P : String → Prop)
    (hg : ∀ b s, s ∈ g b → s ∈ b ∨ P s) :
    ∀ (l : List γ) (b : List String) (s : String),
      s ∈ l.foldl (fun acc _ => g acc) b → s ∈ b ∨ P s := by
  intro l
  induction l with
  | nil => intro b s h; exact Or.inl h
  | cons x xs ih =>
    intro b s h
    simp only [List.foldl_cons] at h
    rcases ih _ s h with hb | hp
    · exact hg b s hb
    · exact Or.inr hp

theorem foldl_prod_split {α β γ : Type} (f : α → γ → α) (g : β → γ → β) :
    ∀ (l : List γ) (a : α) (b : β),
      l.foldl (fun acc c => (f acc.1 c, g acc.2 c)) (a, b) = (l.foldl f a, l.foldl g b) := by
  intro l
  induction l with
  | nil => intro a b; rfl
  | cons x xs ih => intro a b; simp only [List.foldl_cons]; exact ih (f a x) (g b x)

/-- C9: every donor or acceptor heat-map label is
`<adjusted-position><residue-name>` where the adjusted position is the raw
position plus `mask.min - 1` when a mask was applied and the raw position
otherwise. -/
theorem c9_heatmap_label_adjustment (rows : List (Nat × NumRow)) (lm : Option Bounds)
    (s : String) (hs : s ∈ (heatMapLabels rows lm).1 ∨ s ∈ (heatMapLabels rows lm).2) :
    (∃ p res, s = toString (adjusted_position lm p) ++ res) ∧
    (∀ (q : Nat) (m : Bounds), adjusted_position (some m) q = (q : Int) + m.min - 1) ∧
    (∀ q : Nat, adjusted_position none q = (q : Int)) := by
  refine ⟨?_, fun q m => rfl, fun q => rfl⟩
  have hsplit := foldl_prod_split
    (fun a dp => dedupAppend a (donorLabel rows lm dp))
    (fun b dp =>
      (uniqueSortedPositions (rows.map (fun p => p.2.acceptorPosition))).foldl
        (fun accA ap => dedupAppend accA (acceptorLabel rows lm ap)) b)
    (uniqueSortedPositions (rows.map (fun p => p.2.donorPosition))) [] []
  rcases hs with hd | ha
  · have hd' : s ∈ (uniqueSortedPositions (rows.map (fun p => p.2.donorPosition))).foldl
        (fun a dp => dedupAppend a (donorLabel rows lm dp)) [] := by
      unfold heatMapLabels at hd
      rw [hsplit] at hd
      exact hd
    rcases mem_foldl_dedupAppend _ _ _ _ hd' with hnil | ⟨p, _, rfl⟩
    · exact absurd hnil (List.not_mem_nil s)
    · exact ⟨p, _, rfl⟩
  · have ha' : s ∈ (uniqueSortedPositions (rows.map (fun p => p.2.donorPosition))).foldl
        (fun b _ =>
          (uniqueSortedPositions (rows.map (fun p => p.2.acceptorPosition))).foldl
            (fun accA ap => dedupAppend accA (acceptorLabel rows lm ap)) b) [] := by
      unfold heatMapLabels at ha
      rw [hsplit] at ha
      exact ha
    have hstep : ∀ (b : List String) (x : String),
        x ∈ (uniqueSortedPositions (rows.map (fun p => p.2.acceptorPosition))).foldl
          (fun accA ap => dedupAppend accA (acceptorLabel rows lm ap)) b →
        x ∈ b ∨ ∃ p res, x = toString (adjusted_position lm p) ++ res := by
      intro b x hx
      rcases mem_foldl_dedupAppend _ _ _ _ hx with hb | ⟨p, _, rfl⟩
      · exact Or.inl hb
      · exact Or.inr ⟨p, _, rfl⟩
    rcases mem_foldl_apply _ _ hstep _ _ _ ha' with hnil | hp
    · exact absurd hnil (List.not_mem_nil s)
    · exact hp

/-- C9 (witness): with mask `min = 682`, the donor at raw position 1 is
labelled `682ALA`. -/
theorem c9_heatmap_label_adjustment_witness :
    (heatMapLabels [(5, ⟨"c", 1, "ALA", 2, "GLY", 1, 1, 1, 1⟩)] (some ⟨682, 850⟩)).1 =
      ["682ALA"] ∧
    (∃ p res, "682ALA" = toString (adjusted_position (some ⟨682, 850⟩) p) ++ res) :=
  ⟨by decide,
    (c9_heatmap_label_adjustment [(5, ⟨"c", 1, "ALA", 2, "GLY", 1, 1, 1, 1⟩)]
      (some ⟨682, 850⟩) "682ALA" (Or.inl (by decide))).1⟩

/-! ## C3 — second-half occupancy retention -/

theorem range_filter_le_eq (n m : Nat) :
    (List.range n).filter (fun i => decide (m ≤ i)) = List.range' m (n - m) := by
  induction n with
  | zero => simp
  | succ n ih =>
    rw [List.range_succ, List.filter_append, ih]
    by_cases hm : m ≤ n
    · have h1 : n + 1 - m = (n - m) + 1 := by omega
      rw [h1, List.range'_concat]
      have h2 : m + 1 * (n - m) = n := by omega
      simp [hm, h2]
    · have h1 : n + 1 - m = 0 := by omega
      have h2 : n - m = 0 := by omega
      rw [h1, h2]
      simp [hm]

theorem range'_map_getD (d : List ℚ) :
    ∀ m : Nat, (List.range' m (d.length - m)).map (fun i => d.getD i 0) = d.drop m := by
  induction d with
  | nil => intro m; simp
  | cons x t ih =>
    intro m
    match m with
    | 0 =>
      have hlen : (x :: t).length - 0 = t.length + 1 := by simp
      rw [hlen, List.range'_succ]
      simp only [List.map_cons, List.getD_cons_zero, List.drop_zero]
      have := ih 0
      rw [Nat.sub_zero] at this
      rw [List.range'_eq_map_range] at this ⊢
      rw [List.map_map] at this ⊢
      have hcongr : ∀ i ∈ List.range t.length,
          ((fun i => (x :: t).getD i 0) ∘ (fun j => 0 + 1 + j)) i =
            ((fun i => t.getD i 0) ∘ (fun j => 0 + j)) i := by
        intro i _
        simp only [Function.comp_apply]
        have : 0 + 1 + i = i + 1 := by omega
        rw [this, List.getD_cons_succ]
        simp
      rw [List.map_congr_left hcongr, this]
      simp
    | m' + 1 =>
      have hlen : (x :: t).length - (m' + 1) = t.length - m' := by simp
      rw [hlen, List.drop_succ_cons, ← ih m']
      rw [List.range'_eq_map_range, List.range'_eq_map_range, List.map_map, List.map_map]
      apply List.map_congr_left
      intro i _
      simp only [Function.comp_apply]
      have : m' + 1 + i = (m' + i) + 1 := by omega
      rw [this, List.getD_cons_succ]

/-- The index-based spec formulation of the second half equals the
implementation's `drop (len / 2)`. -/
theorem secondHalfSpec_eq_drop (d : List ℚ) : secondHalfSpec d = d.drop (d.length / 2) := by
  unfold secondHalfSpec
  rw [range_filter_le_eq, range'_map_getD]

theorem patternContact_total : patternContact "total_solute_hbonds" = none := by decide

theorem patternContact_frames : patternContact "frames" = none := by decide

/-- `sort_contacts` on the two-key dict of a single surviving contact. -/
theorem sort_contacts_single (k : String) (g : String × String × String × String)
    (hg : patternContact k = some g) :
    sort_contacts ["frames", k] = .ok ["frames", k] := by
  have hkf : k ≠ "frames" := by
    intro h
    rw [h, patternContact_frames] at hg
    exact absurd hg (by simp)
  simp [sort_contacts, sortBuild, hkf, hg, tmpFlatten, tmpInsert, bucketNames,
    List.insertionSort, List.orderedInsert, List.lookup]

/-- Evaluation of `hydrogen_bonds` on a single matching inter-residue
candidate: the run keeps the contact when its second-half occupancy clears
the threshold and otherwise stops via the zero-survivor exit. -/
theorem hydrogen_bonds_single (distThr occThr : ℚ) (d : List ℚ) (k : String)
    (g : String × String × String × String) (n : Nat)
    (hg : patternContact k = some g) (hne : g.2.1 ≠ g.2.2.2) :
    hydrogen_bonds distThr occThr ["total_solute_hbonds", k] [d] n =
      (if keep_contact distThr occThr d
        then .ok [("frames", .frames (List.range n)), (k, .dist d)]
        else .error .exit0) := by
  have hkt : k ≠ "total_solute_hbonds" := by
    intro h
    rw [h, patternContact_total] at hg
    exact absurd hg (by simp)
  have hkf : k ≠ "frames" := by
    intro h
    rw [h, patternContact_frames] at hg
    exact absurd hg (by simp)
  have hscan : hbScan distThr occThr [d] ["total_solute_hbonds", k] 0 =
      (if keep_contact distThr occThr d then (0, 0, [(k, d)]) else (0, 1, [])) := by
    simp only [hbScan, if_pos rfl, hkt, if_neg hkt, hg, hne]
    by_cases hK : keep_contact distThr occThr d <;> simp [hK, hne]
  by_cases hK : keep_contact distThr occThr d
  · rw [if_pos hK]
    unfold hydrogen_bonds
    rw [hscan, if_pos hK]
    norm_num
    rw [sort_contacts_single k g hg]
    have hbf : (k == "frames") = false := beq_eq_false_iff_ne.mpr hkf
    simp [List.lookup, Ne.symm hkf, hbf]
  · rw [if_neg hK]
    unfold hydrogen_bonds
    rw [hscan, if_neg hK]
    norm_num

/-- C3: a candidate pair's occupancy is the percentage of frames with
index from `floor(n/2)` to the end whose distance is at most the distance
threshold, and the pair is retained exactly when this percentage reaches
the occupancy threshold (a pair exactly at the threshold is retained). -/
theorem c3_second_half_occupancy_retention (distThr occThr : ℚ) (d : List ℚ) (h : d ≠ []) :
    ((secondHalfSpec d).length : ℚ) ≠ 0
    ∧ (keep_contact distThr occThr d = true ↔
        occThr ≤ ((secondHalfSpec d).countP (fun x => decide (x ≤ distThr)) : ℚ) /
          ((secondHalfSpec d).length : ℚ) * 100)
    ∧ (∀ (k : String) (g : String × String × String × String) (n : Nat),
        patternContact k = some g → g.2.1 ≠ g.2.2.2 →
        ((∃ cols, hydrogen_bonds distThr occThr ["total_solute_hbonds", k] [d] n = .ok cols ∧
            k ∈ cols.map Prod.fst) ↔ keep_contact distThr occThr d = true)) := by
  refine ⟨?_, ?_, ?_⟩
  · rw [secondHalfSpec_eq_drop]
    have hd : 0 < d.length := List.length_pos.mpr h
    have : 0 < (d.drop (d.length / 2)).length := by
      rw [List.length_drop]
      omega
    exact_mod_cast Nat.pos_iff_ne_zero.mp this
  · rw [secondHalfSpec_eq_drop]
    simp only [keep_contact, pct_contacts, decide_eq_true_eq]
  · intro k g n hg hne
    rw [hydrogen_bonds_single distThr occThr d k g n hg hne]
    by_cases hK : keep_contact distThr occThr d
    · rw [if_pos hK]
      constructor
      · intro _
        exact hK
      · intro _
        exact ⟨_, rfl, by simp⟩
    · rw [if_neg hK]
      constructor
      · rintro ⟨cols, hcols, _⟩
        exact absurd hcols (by simp)
      · intro hkeep
        exact absurd hkeep hK

/-- C3 (witness): a singleton series at distance 1 with threshold 3 is
retained at occupancy threshold 20, matching the spec-side percentage. -/
theorem c3_second_half_occupancy_retention_witness :
    keep_contact 3 20 [(1 : ℚ)] = true ↔
      (20 : ℚ) ≤ ((secondHalfSpec [(1 : ℚ)]).countP (fun x => decide (x ≤ 3)) : ℚ) /
        ((secondHalfSpec [(1 : ℚ)]).length : ℚ) * 100 :=
  (c3_second_half_occupancy_retention 3 20 [1] (by decide)).2.1

/-! ## Association-list machinery for `sort_contacts` -/

theorem bucketInsert_flatMap_perm (b : List (Nat × List String)) (a : Nat) (nm : String) :
    ((bucketInsert b a nm).flatMap (fun ab => ab.2)).Perm
      (nm :: b.flatMap (fun ab => ab.2)) := by
  induction b with
  | nil => simp [bucketInsert]
  | cons p rest ih =>
    rw [bucketInsert]
    by_cases ha : p.1 = a
    · rw [if_pos ha]
      simp only [List.flatMap_cons]
      rw [List.append_assoc]
      exact List.perm_middle
    · rw [if_neg ha]
      simp only [List.flatMap_cons]
      exact (List.Perm.append_left p.2 ih).trans List.perm_middle

theorem tmpInsert_tmpNames_perm (t : List (Nat × List (Nat × List String))) (d a : Nat)
    (nm : String) : (tmpNames (tmpInsert t d a nm)).Perm (nm :: tmpNames t) := by
  induction t with
  | nil => simp [tmpInsert, tmpNames]
  | cons p rest ih =>
    rw [tmpInsert]
    by_cases hd : p.1 = d
    · rw [if_pos hd]
      unfold tmpNames
      simp only [List.flatMap_cons]
      exact (bucketInsert_flatMap_perm p.2 a nm).append_right _
    · rw [if_neg hd]
      unfold tmpNames
      simp only [List.flatMap_cons]
      exact (List.Perm.append_left _ ih).trans List.perm_middle

theorem bucketInsert_keys_sub (b : List (Nat × List String)) (a : Nat) (nm : String) :
    ∀ x ∈ (bucketInsert b a nm).map Prod.fst, x = a ∨ x ∈ b.map Prod.fst := by
  induction b with
  | nil => simp [bucketInsert]
  | cons p rest ih =>
    rw [bucketInsert]
    by_cases ha : p.1 = a
    · rw [if_pos ha]
      intro x hx
      simp only [List.map_cons] at hx ⊢
      exact Or.inr (by simpa using hx)
    · rw [if_neg ha]
      intro x hx
      simp only [List.map_cons, List.mem_cons] at hx ⊢
      rcases hx with hx | hx
      · exact Or.inr (Or.inl hx)
      · rcases ih x hx with h | h
        · exact Or.inl h
        · exact Or.inr (Or.inr h)

theorem bucketInsert_keys_nodup (b : List (Nat × List String)) (a : Nat) (nm : String)
    (h : (b.map Prod.fst).Nodup) : ((bucketInsert b a nm).map Prod.fst).Nodup := by
  induction b with
  | nil => simp [bucketInsert]
  | cons p rest ih =>
    rw [bucketInsert]
    simp only [List.map_cons, List.nodup_cons] at h
    by_cases ha : p.1 = a
    · rw [if_pos ha]
      simp only [List.map_cons, List.nodup_cons]
      exact h
    · rw [if_neg ha]
      simp only [List.map_cons, List.nodup_cons]
      refine ⟨?_, ih h.2⟩
      intro hmem
      rcases bucketInsert_keys_sub rest a nm p.1 hmem with h1 | h1
      · exact ha h1
      · exact h.1 h1

theorem tmpInsert_keys_sub (t : List (Nat × List (Nat × List String))) (d a : Nat)
    (nm : String) :
    ∀ x ∈ (tmpInsert t d a nm).map Prod.fst, x = d ∨ x ∈ t.map Prod.fst := by
  induction t with
  | nil => simp [tmpInsert]
  | cons p rest ih =>
    rw [tmpInsert]
    by_cases hd : p.1 = d
    · rw [if_pos hd]
      intro x hx
      simp only [List.map_cons] at hx ⊢
      exact Or.inr (by simpa using hx)
    · rw [if_neg hd]
      intro x hx
      simp only [List.map_cons, List.mem_cons] at hx ⊢
      rcases hx with hx | hx
      · exact Or.inr (Or.inl hx)
      · rcases ih x hx with h | h
        · exact Or.inl h
        · exact Or.inr (Or.inr h)

theorem tmpInsert_wf (t : List (Nat × List (Nat × List String))) (d a : Nat) (nm : String)
    (h : TmpWF t) : TmpWF (tmpInsert t d a nm) := by
  induction t with
  | nil =>
    refine ⟨by simp [tmpInsert], ?_⟩
    intro p hp
    simp only [tmpInsert, List.mem_singleton] at hp
    subst hp
    simp
  | cons q rest ih =>
    obtain ⟨h1, h2⟩ := h
    simp only [List.map_cons, List.nodup_cons] at h1
    rw [tmpInsert]
    by_cases hd : q.1 = d
    · rw [if_pos hd]
      refine ⟨?_, ?_⟩
      · simp only [List.map_cons, List.nodup_cons]
        exact ⟨h1.1, h1.2⟩
      · intro p hp
        simp only [List.mem_cons] at hp
        rcases hp with hp | hp
        · subst hp
          exact bucketInsert_keys_nodup q.2 a nm (h2 q (List.mem_cons_self q rest))
        · exact h2 p (List.mem_cons_of_mem q hp)
    · rw [if_neg hd]
      have hwfrest : TmpWF rest := ⟨h1.2, fun p hp => h2 p (List.mem_cons_of_mem q hp)⟩
      obtain ⟨ih1, ih2⟩ := ih hwfrest
      refine ⟨?_, ?_⟩
      · simp only [List.map_cons, List.nodup_cons]
        refine ⟨?_, ih1⟩
        intro hmem
        rcases tmpInsert_keys_sub rest d a nm q.1 hmem with hx | hx
        · exact hd hx
        · exact h1.1 hx
      · intro p hp
        simp only [List.mem_cons] at hp
        rcases hp with hp | hp
        · subst hp
          exact h2 q (List.mem_cons_self q rest)
        · exact ih2 p hp

theorem flatMap_lookup_eq {α : Type} (f : α → List String) (dflt : α) :
    ∀ (t : List (Nat × α)), (t.map Prod.fst).Nodup →
      ((t.map Prod.fst).flatMap (fun d => f ((t.lookup d).getD dflt))) =
        t.flatMap (fun p => f p.2) := by
  intro t
  induction t with
  | nil => intro _; rfl
  | cons p rest ih =>
    intro hnd
    simp only [List.map_cons, List.nodup_cons] at hnd
    simp only [List.map_cons, List.flatMap_cons]
    have hhead : (p :: rest).lookup p.1 = some p.2 := by
      rcases p with ⟨k, v⟩
      simp [List.lookup]
    rw [hhead]
    congr 1
    have hcongr : ∀ d ∈ rest.map Prod.fst,
        f (((p :: rest).lookup d).getD dflt) = f ((rest.lookup d).getD dflt) := by
      intro d hd
      have hne : d ≠ p.1 := fun h => hnd.1 (h ▸ hd)
      rcases p with ⟨k, v⟩
      have : (d == k) = false := beq_eq_false_iff_ne.mpr hne
      simp [List.lookup, this]
    rw [List.flatMap_congr hcongr]
    exact ih hnd.2

theorem bucketNames_perm (b : List (Nat × List String)) (hb : (b.map Prod.fst).Nodup) :
    (bucketNames b).Perm (b.flatMap (fun ab => ab.2)) := by
  unfold bucketNames
  refine (List.Perm.flatMap_right _ (List.perm_insertionSort _ _)).trans ?_
  rw [flatMap_lookup_eq (List.insertionSort pyStrLe) [] b hb]
  exact List.Perm.flatMap_left _ (fun ab _ => List.perm_insertionSort _ _)

theorem tmpFlatten_perm (t : List (Nat × List (Nat × List String))) (hwf : TmpWF t) :
    (tmpFlatten t).Perm (tmpNames t) := by
  unfold tmpFlatten
  refine (List.Perm.flatMap_right _ (List.perm_insertionSort _ _)).trans ?_
  rw [flatMap_lookup_eq bucketNames [] t hwf.1]
  exact List.Perm.flatMap_left _ (fun db hdb => bucketNames_perm db.2 (hwf.2 db hdb))

theorem bucketInsert_keyed (b : List (Nat × List String)) (d a : Nat) (nm : String)
    (hb : ∀ ab ∈ b, ∀ x ∈ ab.2, contactKeyPair x = some (d, ab.1))
    (hnm : contactKeyPair nm = some (d, a)) :
    ∀ ab ∈ bucketInsert b a nm, ∀ x ∈ ab.2, contactKeyPair x = some (d, ab.1) := by
  induction b with
  | nil =>
    intro ab hab x hx
    simp only [bucketInsert, List.mem_singleton] at hab
    subst hab
    simp only [List.mem_singleton] at hx
    subst hx
    exact hnm
  | cons p rest ih =>
    rw [bucketInsert]
    by_cases ha : p.1 = a
    · rw [if_pos ha]
      intro ab hab x hx
      rcases List.mem_cons.mp hab with hab | hab
      · subst hab
        rcases List.mem_append.mp hx with hx | hx
        · exact hb p (List.mem_cons_self p rest) x hx
        · simp only [List.mem_singleton] at hx
          subst hx
          rw [hnm, ha]
      · exact hb ab (List.mem_cons_of_mem p hab) x hx
    · rw [if_neg ha]
      intro ab hab x hx
      rcases List.mem_cons.mp hab with hab | hab
      · subst hab
        exact hb p (List.mem_cons_self p rest) x hx
      · exact ih (fun q hq => hb q (List.mem_cons_of_mem p hq)) ab hab x hx

theorem tmpInsert_keyed (t : List (Nat × List (Nat × List String))) (d a : Nat) (nm : String)
    (ht : TmpKeyed t) (hnm : contactKeyPair nm = some (d, a)) :
    TmpKeyed (tmpInsert t d a nm) := by
  induction t with
  | nil =>
    intro db hdb ab hab x hx
    simp only [tmpInsert, List.mem_singleton] at hdb
    subst hdb
    simp only [List.mem_singleton] at hab
    subst hab
    simp only [List.mem_singleton] at hx
    subst hx
    exact hnm
  | cons p rest ih =>
    rw [tmpInsert]
    by_cases hd : p.1 = d
    · rw [if_pos hd]
      intro db hdb ab hab x hx
      rcases List.mem_cons.mp hdb with hdb | hdb
      · subst hdb
        refine bucketInsert_keyed p.2 p.1 a nm ?_ ?_ ab hab x hx
        · exact fun q hq y hy => ht p (List.mem_cons_self p rest) q hq y hy
        · rw [hnm, hd]
      · exact ht db (List.mem_cons_of_mem p hdb) ab hab x hx
    · rw [if_neg hd]
      intro db hdb ab hab x hx
      rcases List.mem_cons.mp hdb with hdb | hdb
      · subst hdb
        exact ht p (List.mem_cons_self p rest) ab hab x hx
      · exact ih (fun q hq => ht q (List.mem_cons_of_mem p hq)) db hdb ab hab x hx

theorem sortBuild_ok_spec :
    ∀ (names : List String) (o : List String) (t : List (Nat × List (Nat × List String)))
      (o' : List String) (t' : List (Nat × List (Nat × List String))),
      sortBuild names (o, t) = .ok (o', t') →
      o' = o ++ names.filter (fun nm => nm == "frames") ∧
      (tmpNames t').Perm (tmpNames t ++ names.filter (fun nm => !(nm == "frames"))) ∧
      (TmpWF t → TmpWF t') ∧ (TmpKeyed t → TmpKeyed t') ∧
      (∀ nm ∈ names.filter (fun nm => !(nm == "frames")), (patternContact nm).isSome) := by
  intro names
  induction names with
  | nil =>
    intro o t o' t' h
    simp only [sortBuild, Except.ok.injEq, Prod.mk.injEq] at h
    obtain ⟨rfl, rfl⟩ := h
    simp
  | cons nm rest ih =>
    intro o t o' t' h
    rw [sortBuild] at h
    by_cases hf : nm = "frames"
    · rw [if_pos hf] at h
      obtain ⟨h1, h2, h3, h4, h5⟩ := ih (o ++ [nm]) t o' t' h
      have hb : (nm == "frames") = true := beq_iff_eq.mpr hf
      refine ⟨?_, ?_, h3, h4, ?_⟩
      · rw [h1, List.filter_cons, hb]
        simp
      · rw [List.filter_cons, hb]
        simpa using h2
      · intro x hx
        rw [List.filter_cons, hb] at hx
        simp only [Bool.not_true, if_false] at hx
        exact h5 x hx
    · rw [if_neg hf] at h
      have hb : (nm == "frames") = false := beq_eq_false_iff_ne.mpr hf
      rcases hp : patternContact nm with _ | g
      · rw [hp] at h
        exact absurd h (by simp)
      · rw [hp] at h
        obtain ⟨h1, h2, h3, h4, h5⟩ :=
          ih o (tmpInsert t (digitsToNat g.2.1.data) (digitsToNat g.2.2.2.data) nm) o' t' h
        refine ⟨?_, ?_, ?_, ?_, ?_⟩
        · rw [h1, List.filter_cons, hb]
          simp
        · rw [List.filter_cons, hb]
          simp only [Bool.not_false, if_true]
          refine h2.trans ?_
          refine (List.Perm.append_right _
            (tmpInsert_tmpNames_perm t (digitsToNat g.2.1.data)
              (digitsToNat g.2.2.2.data) nm)).trans ?_
          exact (List.perm_middle).symm
        · intro hwf
          exact h3 (tmpInsert_wf t _ _ nm hwf)
        · intro hk
          refine h4 (tmpInsert_keyed t _ _ nm hk ?_)
          rw [contactKeyPair, hp]
          rfl
        · intro x hx
          rw [List.filter_cons, hb] at hx
          simp only [Bool.not_false, if_true] at hx
          rcases List.mem_cons.mp hx with hx | hx
          · subst hx
            rw [hp]
            rfl
          · exact h5 x hx

/-- Characterization of a successful `sort_contacts` run: the output is the
`"frames"` occurrences followed by a permutation of the remaining names, and
every non-`"frames"` input name matched the pattern. -/
theorem sort_contacts_ok_spec (names : List String) (out : List String)
    (h : sort_contacts names = .ok out) :
    ∃ t', out = names.filter (fun nm => nm == "frames") ++ tmpFlatten t' ∧
      (tmpNames t').Perm (names.filter (fun nm => !(nm == "frames"))) ∧
      TmpWF t' ∧ TmpKeyed t' ∧
      (∀ nm ∈ names.filter (fun nm => !(nm == "frames")), (patternContact nm).isSome) := by
  unfold sort_contacts at h
  rcases hb : sortBuild names ([], []) with e | p
  · rw [hb] at h
    exact absurd h (by simp)
  · rw [hb] at h
    rcases p with ⟨o', t'⟩
    simp only [Except.ok.injEq] at h
    obtain ⟨h1, h2, h3, h4, h5⟩ := sortBuild_ok_spec names [] [] o' t' hb
    refine ⟨t', ?_, ?_, ?_, ?_, h5⟩
    · rw [← h, h1]
      simp
    · simpa [tmpNames] using h2
    · exact h3 ⟨List.nodup_nil, by simp⟩
    · exact h4 (by intro db hdb; exact absurd hdb (List.not_mem_nil db))
  
/-- A successful `sort_contacts` output is a permutation of its input. -/
theorem sort_contacts_perm (names : List String) (out : List String)
    (h : sort_contacts names = .ok out) : out.Perm names := by
  obtain ⟨t', h1, h2, hwf, _, _⟩ := sort_contacts_ok_spec names out h
  rw [h1]
  refine (List.Perm.append_left _ ((tmpFlatten_perm t' hwf).trans h2)).trans ?_
  exact List.filter_append_perm _ names

/-- `sort_contacts` succeeds whenever every non-`"frames"` name matches the
pattern (the extraction loop guarantees this for its surviving columns). -/
theorem sort_contacts_ok_of_matches :
    ∀ (names : List String),
      (∀ nm ∈ names, nm = "frames" ∨ (patternContact nm).isSome) →
      ∀ (o : List String) (t : List (Nat × List (Nat × List String))),
        ∃ res, sortBuild names (o, t) = .ok res := by
  intro names
  induction names with
  | nil => intro _ o t; exact ⟨(o, t), rfl⟩
  | cons nm rest ih =>
    intro hall o t
    rw [sortBuild]
    by_cases hf : nm = "frames"
    · rw [if_pos hf]
      exact ih (fun x hx => hall x (List.mem_cons_of_mem nm hx)) (o ++ [nm]) t
    · rw [if_neg hf]
      rcases hp : patternContact nm with _ | g
      · rcases hall nm (List.mem_cons_self nm rest) with h | h
        · exact absurd h hf
        · rw [hp] at h
          exact absurd h (by simp)
      · exact ih (fun x hx => hall x (List.mem_cons_of_mem nm hx)) o
          (tmpInsert t (digitsToNat g.2.1.data) (digitsToNat g.2.2.2.data) nm)

/-- Every column retained by the extraction loop carries a name that
matched the pattern with distinct donor/acceptor digit strings, and a
series that cleared the occupancy threshold. -/
theorem hbScan_mem (distThr occThr : ℚ) (dist : List (List ℚ)) :
    ∀ (keys : List String) (idx : Nat) (c : String × List ℚ),
      c ∈ (hbScan distThr occThr dist keys idx).2.2 →
      ∃ g, patternContact c.1 = some g ∧ g.2.1 ≠ g.2.2.2 ∧
        keep_contact distThr occThr c.2 = true := by
  intro keys
  induction keys with
  | nil => intro idx c h; simp [hbScan] at h
  | cons key rest ih =>
    intro idx c h
    by_cases hk : key = "total_solute_hbonds"
    · rw [show hbScan distThr occThr dist (key :: rest) idx =
          hbScan distThr occThr dist rest idx from by simp [hbScan, hk]] at h
      exact ih idx c h
    · rcases hp : patternContact key with _ | g
      · rw [show hbScan distThr occThr dist (key :: rest) idx =
            hbScan distThr occThr dist rest (idx + 1) from by simp [hbScan, hk, hp]] at h
        exact ih _ c h
      · by_cases hi : g.2.1 = g.2.2.2
        · have : (hbScan distThr occThr dist (key :: rest) idx).2.2 =
              (hbScan distThr occThr dist rest (idx + 1)).2.2 := by
            simp [hbScan, hk, hp, hi]
          rw [this] at h
          exact ih _ c h
        · by_cases hkeep : keep_contact distThr occThr (dist.getD idx [])
          · have hkeep' := hkeep
            rw [List.getD_eq_getElem?_getD] at hkeep'
            have : (hbScan distThr occThr dist (key :: rest) idx).2.2 =
                (key, dist.getD idx []) :: (hbScan distThr occThr dist rest (idx + 1)).2.2 := by
              simp [hbScan, hk, hp, hi, hkeep']
            rw [this] at h
            rcases List.mem_cons.mp h with h | h
            · subst h
              exact ⟨g, hp, hi, hkeep⟩
            · exact ih _ c h
          · have hkeep' : ¬(keep_contact distThr occThr (dist[idx]?.getD []) = true) := by
              rw [← List.getD_eq_getElem?_getD]
              exact hkeep
            have : (hbScan distThr occThr dist (key :: rest) idx).2.2 =
                (hbScan distThr occThr dist rest (idx + 1)).2.2 := by
              simp [hbScan, hk, hp, hi, hkeep']
            rw [this] at h
            exact ih _ c h

/-- The column names of a successful `hydrogen_bonds` result are exactly
the ordered names produced by `sort_contacts` on the dict keys. -/
theorem hydrogen_bonds_ok_columns (distThr occThr : ℚ) (hbKeys : List String)
    (dist : List (List ℚ)) (nFrames : Nat) (cols : List (String × ColVal))
    (h : hydrogen_bonds distThr occThr hbKeys dist nFrames = .ok cols) :
    ∃ ordered,
      sort_contacts ("frames" ::
        (hbScan distThr occThr dist hbKeys 0).2.2.map Prod.fst) = .ok ordered ∧
      cols.map Prod.fst = ordered := by
  unfold hydrogen_bonds at h
  by_cases hz : ((hbKeys.length : Int) - 1 - (hbScan distThr occThr dist hbKeys 0).1 -
      (hbScan distThr occThr dist hbKeys 0).2.1) = 0
  · rw [if_pos hz] at h
    exact absurd h (by simp)
  · rw [if_neg hz] at h
    have hkeys : (("frames", ColVal.frames (List.range nFrames)) ::
        (hbScan distThr occThr dist hbKeys 0).2.2.map
          (fun c => (c.1, ColVal.dist c.2))).map Prod.fst =
        "frames" :: (hbScan distThr occThr dist hbKeys 0).2.2.map Prod.fst := by
      simp [List.map_map, Function.comp]
    rcases hs : sort_contacts ((("frames", ColVal.frames (List.range nFrames)) ::
        (hbScan distThr occThr dist hbKeys 0).2.2.map
          (fun c => (c.1, ColVal.dist c.2))).map Prod.fst) with e | ordered
    · simp only [hs] at h
      exact absurd h (by simp)
    · simp only [hs, Except.ok.injEq] at h
      refine ⟨ordered, ?_, ?_⟩
      · rw [← hkeys]
        exact hs
      · rw [← h]
        simp [List.map_map, Function.comp_def]

theorem sort_contacts_ok_total (names : List String)
    (hall : ∀ nm ∈ names, nm = "frames" ∨ (patternContact nm).isSome) :
    ∃ out, sort_contacts names = .ok out := by
  obtain ⟨res, hres⟩ := sort_contacts_ok_of_matches names hall [] []
  rcases res with ⟨o, t⟩
  refine ⟨o ++ tmpFlatten t, ?_⟩
  unfold sort_contacts
  rw [hres]

/-- Keys of the surviving-columns dict: `"frames"` or a pattern-matching
contact name. -/
theorem hbScan_dict_keys_match (distThr occThr : ℚ) (dist : List (List ℚ))
    (hbKeys : List String) (nFrames : Nat) :
    ∀ nm ∈ (("frames", ColVal.frames (List.range nFrames)) ::
        (hbScan distThr occThr dist hbKeys 0).2.2.map
          (fun c => (c.1, ColVal.dist c.2))).map Prod.fst,
      nm = "frames" ∨ (patternContact nm).isSome := by
  intro nm hnm
  simp only [List.map_cons, List.mem_cons, List.map_map] at hnm
  rcases hnm with hnm | hnm
  · exact Or.inl hnm
  · right
    simp only [List.mem_map, Function.comp_apply] at hnm
    obtain ⟨c, hc, rfl⟩ := hnm
    obtain ⟨g, hg, _, _⟩ := hbScan_mem distThr occThr dist hbKeys 0 c hc
    rw [hg]
    rfl

/-- The fatal `PatternMismatch` exit inside `sort_contacts` is unreachable
from `hydrogen_bonds`: every surviving column name already matched. -/
theorem hydrogen_bonds_no_exit1 (distThr occThr : ℚ) (hbKeys : List String)
    (dist : List (List ℚ)) (nFrames : Nat) :
    hydrogen_bonds distThr occThr hbKeys dist nFrames ≠ .error .exit1 := by
  intro hcontra
  unfold hydrogen_bonds at hcontra
  by_cases hz : ((hbKeys.length : Int) - 1 - (hbScan distThr occThr dist hbKeys 0).1 -
      (hbScan distThr occThr dist hbKeys 0).2.1) = 0
  · rw [if_pos hz] at hcontra
    simp at hcontra
  · rw [if_neg hz] at hcontra
    obtain ⟨out, hout⟩ := sort_contacts_ok_total
      ((("frames", ColVal.frames (List.range nFrames)) ::
        (hbScan distThr occThr dist hbKeys 0).2.2.map
          (fun c => (c.1, ColVal.dist c.2))).map Prod.fst)
      (hbScan_dict_keys_match distThr occThr dist hbKeys nFrames)
    simp only [hout] at hcontra
    exact absurd hcontra (by simp)

/-! ## C4 — intra-residue exclusion -/

/-- C4 (counterexample): the intra-residue check compares the position
capture groups as strings, so `ALA01-H-ALA1` — donor position `01` and
acceptor position `1`, the same residue position 1 — is not excluded; with
full second-half occupancy it is retained in the ContactRecord. -/
theorem c4_intra_residue_string_compare_cex :
    patternContact "ALA01-H-ALA1" = some ("ALA", "01", "ALA", "1") ∧
    digitsToNat "01".data = 1 ∧ digitsToNat "1".data = 1 ∧
    hydrogen_bonds 3 20 ["total_solute_hbonds", "ALA01-H-ALA1"] [[1]] 1 =
      .ok [("frames", .frames [0]), ("ALA01-H-ALA1", .dist [1])] := by
  refine ⟨by decide, by decide, by decide, ?_⟩
  have hk : keep_contact 3 20 [1] = true := keep_contact_single (by norm_num) (by norm_num)
  rw [hydrogen_bonds_single 3 20 [1] "ALA01-H-ALA1" ("ALA", "01", "ALA", "1") 1
    (by decide) (by decide), if_pos hk]
  decide

/-- C4 (amended): a candidate pair whose donor and acceptor position
digit strings are equal (string comparison, exactly as line 248 performs
it) never appears among the ContactRecord columns. -/
theorem c4_intra_residue_exclusion (distThr occThr : ℚ) (keys : List String)
    (dist : List (List ℚ)) (n : Nat) (cols : List (String × ColVal))
    (h : hydrogen_bonds distThr occThr keys dist n = .ok cols)
    (nm : String) (g : String × String × String × String)
    (hg : patternContact nm = some g) (heq : g.2.1 = g.2.2.2) :
    nm ∉ cols.map Prod.fst := by
  intro hmem
  obtain ⟨ordered, hsort, hcols⟩ :=
    hydrogen_bonds_ok_columns distThr occThr keys dist n cols h
  rw [hcols] at hmem
  have hperm := sort_contacts_perm _ _ hsort
  have hmem' := hperm.mem_iff.mp hmem
  rcases List.mem_cons.mp hmem' with hfr | hsc
  · rw [hfr, patternContact_frames] at hg
    exact absurd hg (by simp)
  · obtain ⟨c, hc, rfl⟩ := List.mem_map.mp hsc
    obtain ⟨g', hg', hne', _⟩ := hbScan_mem distThr occThr dist keys 0 c hc
    rw [hg] at hg'
    obtain rfl : g = g' := by injection hg'
    exact hne' heq

/-- C4 (witness): in a concrete run, the name `GLU5-H-GLU5` (equal donor
and acceptor digit strings) is absent from the columns. -/
theorem c4_intra_residue_exclusion_witness :
    "GLU5-H-GLU5" ∉
      ([("frames", ColVal.frames [0]), ("ALA1-X-GLY2", ColVal.dist [1])].map Prod.fst) := by
  have hk : keep_contact 3 20 [1] = true := keep_contact_single (by norm_num) (by norm_num)
  have hrun : hydrogen_bonds 3 20 ["total_solute_hbonds", "ALA1-X-GLY2"] [[1]] 1 =
      .ok [("frames", .frames [0]), ("ALA1-X-GLY2", .dist [1])] := by
    rw [hydrogen_bonds_single 3 20 [1] "ALA1-X-GLY2" ("ALA", "1", "GLY", "2") 1
      (by decide) (by decide), if_pos hk]
    decide
  exact c4_intra_residue_exclusion 3 20 ["total_solute_hbonds", "ALA1-X-GLY2"] [[1]] 1
    [("frames", .frames [0]), ("ALA1-X-GLY2", .dist [1])] hrun
    "GLU5-H-GLU5" ("GLU", "5", "GLU", "5") (by decide) rfl

/-! ## C1 — unmatched candidate names are silently skipped -/

/-- C1 (counterexample): a candidate whose name does not match the naming
pattern (`nomatch`) does not make the run fail — the run completes
normally and the pair is silently absent from the ContactRecord, while the
matching candidate survives. -/
theorem c1_unmatched_pair_silently_skipped_cex :
    patternContact "nomatch" = none ∧
    hydrogen_bonds 3 20 ["total_solute_hbonds", "nomatch", "ALA1-X-GLY2"] [[1], [1]] 1 =
      .ok [("frames", .frames [0]), ("ALA1-X-GLY2", .dist [1])] ∧
    "nomatch" ∉
      ([("frames", ColVal.frames [0]), ("ALA1-X-GLY2", ColVal.dist [1])].map Prod.fst) := by
  refine ⟨by decide, ?_, by decide⟩
  have hk : keep_contact 3 20 [1] = true := keep_contact_single (by norm_num) (by norm_num)
  simp only [hydrogen_bonds, hbScan]
  norm_num [hk]
  decide

/-- C1 (amended): the extraction loop silently skips a candidate pair whose
name fails the naming pattern: the run never terminates through the fatal
`PatternMismatch` exit of `sort_contacts`, and every non-`"frames"` column
of a successful ContactRecord has a name that matched the pattern — so a
non-matching candidate is dropped without any error. -/
theorem c1_unmatched_pair_silently_skipped (distThr occThr : ℚ) (keys : List String)
    (dist : List (List ℚ)) (n : Nat) :
    hydrogen_bonds distThr occThr keys dist n ≠ .error .exit1 ∧
    ∀ cols, hydrogen_bonds distThr occThr keys dist n = .ok cols →
      ∀ nm ∈ cols.map Prod.fst, nm ≠ "frames" → (patternContact nm).isSome := by
  refine ⟨hydrogen_bonds_no_exit1 distThr occThr keys dist n, ?_⟩
  intro cols h nm hnm hnf
  obtain ⟨ordered, hsort, hcols⟩ :=
    hydrogen_bonds_ok_columns distThr occThr keys dist n cols h
  rw [hcols] at hnm
  have hmem' := (sort_contacts_perm _ _ hsort).mem_iff.mp hnm
  rcases List.mem_cons.mp hmem' with hfr | hsc
  · exact absurd hfr hnf
  · obtain ⟨c, hc, rfl⟩ := List.mem_map.mp hsc
    obtain ⟨g, hg, _, _⟩ := hbScan_mem distThr occThr dist keys 0 c hc
    rw [hg]
    rfl

/-- C1 (witness): in the concrete run with the unmatched `nomatch`
candidate, the run does not exit fatally, and the surviving column name
matched the pattern. -/
theorem c1_unmatched_pair_silently_skipped_witness :
    hydrogen_bonds 3 20 ["total_solute_hbonds", "nomatch", "ALA1-X-GLY2"] [[1], [1]] 1 ≠
      .error .exit1 ∧
    (patternContact "ALA1-X-GLY2").isSome := by
  constructor
  · exact (c1_unmatched_pair_silently_skipped 3 20
      ["total_solute_hbonds", "nomatch", "ALA1-X-GLY2"] [[1], [1]] 1).1
  · exact (c1_unmatched_pair_silently_skipped 3 20
      ["total_solute_hbonds", "nomatch", "ALA1-X-GLY2"] [[1], [1]] 1).2
      [("frames", .frames [0]), ("ALA1-X-GLY2", .dist [1])]
      (c1_unmatched_pair_silently_skipped_cex.2.1) "ALA1-X-GLY2" (by decide) (by decide)

/-! ## C8 — column ordering of the ContactRecord -/

theorem charsLe_total : ∀ (as bs : List Char), charsLe as bs = true ∨ charsLe bs as = true := by
  intro as
  induction as with
  | nil => intro bs; exact Or.inl rfl
  | cons a as' ih =>
    intro bs
    cases bs with
    | nil => exact Or.inr rfl
    | cons b bs' =>
      by_cases h1 : a.toNat < b.toNat
      · left
        simp [charsLe, h1]
      · by_cases h2 : b.toNat < a.toNat
        · right
          simp [charsLe, h2]
        · rcases ih bs' with h | h
          · left
            simp [charsLe, h1, h2, h]
          · right
            simp [charsLe, h1, h2, h]

theorem charsLe_trans : ∀ (as bs cs : List Char),
    charsLe as bs = true → charsLe bs cs = true → charsLe as cs = true := by
  intro as
  induction as with
  | nil => intro bs cs _ _; rfl
  | cons a as' ih =>
    intro bs cs hab hbc
    cases bs with
    | nil => exact absurd hab (by simp [charsLe])
    | cons b bs' =>
      cases cs with
      | nil => exact absurd hbc (by simp [charsLe])
      | cons c cs' =>
        rw [charsLe] at hab hbc ⊢
        by_cases h1 : a.toNat < b.toNat
        · by_cases h2 : b.toNat < c.toNat
          · have : a.toNat < c.toNat := by omega
            simp [this]
          · by_cases h3 : c.toNat < b.toNat
            · rw [if_neg h2, if_pos h3] at hbc
              exact absurd hbc (by simp)
            · have : a.toNat < c.toNat := by omega
              simp [this]
        · by_cases h4 : b.toNat < a.toNat
          · rw [if_neg h1, if_pos h4] at hab
            exact absurd hab (by simp)
          · rw [if_neg h1, if_neg h4] at hab
            by_cases h2 : b.toNat < c.toNat
            · have h5 : a.toNat < c.toNat := by omega
              simp [h5]
            · by_cases h3 : c.toNat < b.toNat
              · rw [if_neg h2, if_pos h3] at hbc
                exact absurd hbc (by simp)
              · rw [if_neg h2, if_neg h3] at hbc
                have h5 : ¬(a.toNat < c.toNat) := by omega
                have h6 : ¬(c.toNat < a.toNat) := by omega
                rw [if_neg h5, if_neg h6]
                exact ih bs' cs' hab hbc

instance : IsTotal String pyStrLe :=
  ⟨fun s t => charsLe_total s.data t.data⟩

instance : IsTrans String pyStrLe :=
  ⟨fun s t u => charsLe_trans s.data t.data u.data⟩

theorem lookup_some_of_mem_keys {α β : Type} [BEq α] [LawfulBEq α] (l : List (α × β)) (k : α)
    (h : k ∈ l.map Prod.fst) : ∃ v, l.lookup k = some v := by
  induction l with
  | nil => exact absurd h (by simp)
  | cons p rest ih =>
    rcases p with ⟨k', v'⟩
    by_cases hk : k = k'
    · subst hk
      exact ⟨v', by simp [List.lookup]⟩
    · have : (k == k') = false := beq_eq_false_iff_ne.mpr hk
      rw [List.lookup_cons, this]
      apply ih
      simp only [List.map_cons, List.mem_cons] at h
      rcases h with h | h
      · exact absurd h hk
      · exact h

theorem pairwise_flatMap {γ : Type} {R : String → String → Prop} (l : List γ)
    (f : γ → List String) (hblocks : ∀ c ∈ l, (f c).Pairwise R)
    (hcross : l.Pairwise (fun c1 c2 => ∀ x ∈ f c1, ∀ y ∈ f c2, R x y)) :
    (l.flatMap f).Pairwise R := by
  rw [List.flatMap_def, List.pairwise_flatten]
  constructor
  · intro blk hblk
    obtain ⟨c, hc, rfl⟩ := List.mem_map.mp hblk
    exact hblocks c hc
  · rw [List.pairwise_map]
    exact hcross

theorem mem_insertionSort_block (b : List (Nat × List String)) (a : Nat) (x : String)
    (hx : x ∈ List.insertionSort pyStrLe ((b.lookup a).getD [])) :
    ∃ ns, b.lookup a = some ns ∧ x ∈ ns := by
  have hx' := (List.perm_insertionSort pyStrLe _).mem_iff.mp hx
  rcases hl : b.lookup a with _ | ns
  · rw [hl] at hx'
    exact absurd hx' (by simp)
  · rw [hl] at hx'
    exact ⟨ns, rfl, by simpa using hx'⟩

theorem bucketNames_pairwise (d : Nat) (b : List (Nat × List String))
    (hnd : (b.map Prod.fst).Nodup)
    (hkey : ∀ ab ∈ b, ∀ x ∈ ab.2, contactKeyPair x = some (d, ab.1)) :
    (bucketNames b).Pairwise contactLe := by
  unfold bucketNames
  have hmemkey : ∀ a ∈ List.insertionSort (· ≤ ·) (b.map Prod.fst),
      ∀ x ∈ List.insertionSort pyStrLe ((b.lookup a).getD []),
        contactKeyPair x = some (d, a) := by
    intro a _ x hx
    obtain ⟨ns, hl, hxns⟩ := mem_insertionSort_block b a x hx
    have hmem := lookup_mem hl
    exact hkey (a, ns) hmem x hxns
  apply pairwise_flatMap
  · intro a ha
    have hsorted : (List.insertionSort pyStrLe ((b.lookup a).getD [])).Pairwise pyStrLe :=
      List.sorted_insertionSort pyStrLe _
    refine List.Pairwise.imp_of_mem ?_ hsorted
    intro x y hxm hym hxy
    have hkx := hmemkey a ha x hxm
    have hky := hmemkey a ha y hym
    right
    unfold contactSortKey
    rw [hkx, hky]
    exact ⟨rfl, Or.inr ⟨rfl, hxy⟩⟩
  · have hsrt : (List.insertionSort (· ≤ ·) (b.map Prod.fst)).Sorted (· ≤ ·) :=
      List.sorted_insertionSort _ _
    have hnd' : (List.insertionSort (· ≤ ·) (b.map Prod.fst)).Nodup :=
      (List.perm_insertionSort _ _).nodup_iff.mpr hnd
    have hlt : (List.insertionSort (· ≤ ·) (b.map Prod.fst)).Pairwise (· < ·) :=
      (hsrt.and hnd').imp (fun hab => lt_of_le_of_ne hab.1 hab.2)
    refine List.Pairwise.imp_of_mem ?_ hlt
    intro a1 a2 h1m h2m hlt12 x hxm y hym
    have hkx := hmemkey a1 h1m x hxm
    have hky := hmemkey a2 h2m y hym
    right
    unfold contactSortKey
    rw [hkx, hky]
    exact ⟨rfl, Or.inl hlt12⟩

theorem tmpFlatten_pairwise (t : List (Nat × List (Nat × List String)))
    (hwf : TmpWF t) (hkeyed : TmpKeyed t) :
    (tmpFlatten t).Pairwise contactLe := by
  unfold tmpFlatten
  have hmemkey : ∀ dk ∈ List.insertionSort (· ≤ ·) (t.map Prod.fst),
      ∀ x ∈ bucketNames ((t.lookup dk).getD []),
        ∃ a, contactKeyPair x = some (dk, a) := by
    intro dk hdk x hx
    have hdk' := (List.perm_insertionSort (α := Nat) (· ≤ ·) _).mem_iff.mp hdk
    obtain ⟨b, hb⟩ := lookup_some_of_mem_keys t dk hdk'
    rw [hb] at hx
    have hbt := lookup_mem hb
    simp only [Option.getD_some] at hx
    unfold bucketNames at hx
    obtain ⟨a, _, hx2⟩ := List.mem_flatMap.mp hx
    obtain ⟨ns, hl, hxns⟩ := mem_insertionSort_block b a x hx2
    exact ⟨a, hkeyed (dk, b) hbt (a, ns) (lookup_mem hl) x hxns⟩
  apply pairwise_flatMap
  · intro dk hdk
    have hdk' := (List.perm_insertionSort (α := Nat) (· ≤ ·) _).mem_iff.mp hdk
    obtain ⟨b, hb⟩ := lookup_some_of_mem_keys t dk hdk'
    rw [hb]
    simp only [Option.getD_some]
    exact bucketNames_pairwise dk b (hwf.2 (dk, b) (lookup_mem hb))
      (fun ab hab x hx => hkeyed (dk, b) (lookup_mem hb) ab hab x hx)
  · have hsrt : (List.insertionSort (· ≤ ·) (t.map Prod.fst)).Sorted (· ≤ ·) :=
      List.sorted_insertionSort _ _
    have hnd' : (List.insertionSort (· ≤ ·) (t.map Prod.fst)).Nodup :=
      (List.perm_insertionSort _ _).nodup_iff.mpr hwf.1
    have hlt : (List.insertionSort (· ≤ ·) (t.map Prod.fst)).Pairwise (· < ·) :=
      (hsrt.and hnd').imp (fun hab => lt_of_le_of_ne hab.1 hab.2)
    refine List.Pairwise.imp_of_mem ?_ hlt
    intro d1 d2 h1m h2m hlt12 x hxm y hym
    obtain ⟨a1, hkx⟩ := hmemkey d1 h1m x hxm
    obtain ⟨a2, hky⟩ := hmemkey d2 h2m y hym
    left
    unfold contactSortKey
    rw [hkx, hky]
    exact hlt12

/-- C8: the columns of a successful ContactRecord are the frame-index
column first, followed by the surviving contact columns arranged by donor
position ascending (as integers), then acceptor position ascending, then
contact name ascending. -/
theorem c8_columns_sorted (distThr occThr : ℚ) (keys : List String) (dist : List (List ℚ))
    (n : Nat) (cols : List (String × ColVal))
    (h : hydrogen_bonds distThr occThr keys dist n = .ok cols) :
    ∃ rest, cols.map Prod.fst = "frames" :: rest ∧
      rest.Perm ((hbScan distThr occThr dist keys 0).2.2.map Prod.fst) ∧
      rest.Pairwise contactLe := by
  obtain ⟨ordered, hsort, hcols⟩ :=
    hydrogen_bonds_ok_columns distThr occThr keys dist n cols h
  obtain ⟨t', hout, hperm, hwf, hkeyed, _⟩ := sort_contacts_ok_spec _ _ hsort
  have hnof : ∀ nm ∈ (hbScan distThr occThr dist keys 0).2.2.map Prod.fst,
      (nm == "frames") = false := by
    intro nm hnm
    obtain ⟨c, hc, rfl⟩ := List.mem_map.mp hnm
    obtain ⟨g, hg, _, _⟩ := hbScan_mem distThr occThr dist keys 0 c hc
    refine beq_eq_false_iff_ne.mpr ?_
    intro hfr
    rw [hfr, patternContact_frames] at hg
    exact absurd hg (by simp)
  have hfilter1 : ("frames" :: (hbScan distThr occThr dist keys 0).2.2.map Prod.fst).filter
      (fun nm => nm == "frames") = ["frames"] := by
    rw [List.filter_cons]
    simp only [beq_self_eq_true, if_true]
    congr 1
    rw [List.filter_eq_nil_iff]
    intro nm hnm
    rw [hnof nm hnm]
    simp
  have hfilter2 : ("frames" :: (hbScan distThr occThr dist keys 0).2.2.map Prod.fst).filter
      (fun nm => !(nm == "frames")) = (hbScan distThr occThr dist keys 0).2.2.map Prod.fst := by
    rw [List.filter_cons]
    simp only [beq_self_eq_true, Bool.not_true]
    rw [if_neg (by simp)]
    rw [List.filter_eq_self]
    intro nm hnm
    rw [hnof nm hnm]
    rfl
  refine ⟨tmpFlatten t', ?_, ?_, tmpFlatten_pairwise t' hwf hkeyed⟩
  · rw [hcols, hout, hfilter1]
    rfl
  · rw [hfilter2] at hperm
    exact (tmpFlatten_perm t' hwf).trans hperm

/-- C8 (witness): a concrete run with two surviving contacts inserted in
reverse order comes out with the frame column first and the contacts sorted
by donor position. -/
theorem c8_columns_sorted_witness :
    ∃ rest, ([("frames", ColVal.frames [0]), ("ALA1-X-GLU2", ColVal.dist [1]),
        ("GLU2-X-ALA1", ColVal.dist [1])].map Prod.fst) = "frames" :: rest ∧
      rest.Perm ((hbScan 3 20 [[1], [1]]
        ["total_solute_hbonds", "GLU2-X-ALA1", "ALA1-X-GLU2"] 0).2.2.map Prod.fst) ∧
      rest.Pairwise contactLe := by
  have hk : keep_contact 3 20 [1] = true := keep_contact_single (by norm_num) (by norm_num)
  have hrun : hydrogen_bonds 3 20 ["total_solute_hbonds", "GLU2-X-ALA1", "ALA1-X-GLU2"]
      [[1], [1]] 1 = .ok [("frames", .frames [0]), ("ALA1-X-GLU2", .dist [1]),
        ("GLU2-X-ALA1", .dist [1])] := by
    simp only [hydrogen_bonds, hbScan]
    norm_num [hk]
    decide
  exact c8_columns_sorted 3 20 ["total_solute_hbonds", "GLU2-X-ALA1", "ALA1-X-GLU2"]
    [[1], [1]] 1 _ hrun

/-! ## C6 — Contact Aggregator: one row per pair, minimal row, count -/

/-- C6 (counterexample): on a ContactStats table whose duplicate residue
pair is not contiguous, the positional assignment
`df["number contacts"] = donor_acceptor_nb_contacts` attaches the counts to
the wrong rows: the surviving row of pair (3, 4) — a group of one input
row — receives `number contacts = 2`, and the row of pair (1, 2) — a group
of two input rows — receives `1`. -/
theorem c6_number_contacts_misassignment_cex :
    reduce_contacts_dataframe cexStats .sndMean none =
      .ok (cexNum,
        [(1, ⟨"c1", 3, "VAL", 4, "SER", 1, 1, 1, 1⟩, 2),
         (2, ⟨"c2", 1, "ALA", 2, "GLY", 2, 2, 2, 2⟩, 1)]) ∧
    (cexStats.filter (fun p =>
      p.2.donorPosition == "3" && p.2.acceptorPosition == "4")).length = 1 ∧
    (cexStats.filter (fun p =>
      p.2.donorPosition == "1" && p.2.acceptorPosition == "2")).length = 2 := by
  decide

theorem firstSeenAux_congr {β : Type} [BEq β] :
    ∀ (f1 : Nat) (f2 : Nat) (l : List β), l.length ≤ f1 → l.length ≤ f2 →
      firstSeenAux f1 l = firstSeenAux f2 l := by
  intro f1
  induction f1 with
  | zero =>
    intro f2 l h1 _
    have : l = [] := List.length_eq_zero.mp (Nat.le_zero.mp h1)
    subst this
    cases f2 <;> rfl
  | succ f1' ih =>
    intro f2 l h1 h2
    cases l with
    | nil => cases f2 <;> rfl
    | cons b rest =>
      cases f2 with
      | zero => exact absurd h2 (by simp)
      | succ f2' =>
        simp only [firstSeenAux]
        congr 1
        refine ih f2' _ ?_ ?_
        · exact le_trans (List.length_filter_le _ _) (by simpa using h1)
        · exact le_trans (List.length_filter_le _ _) (by simpa using h2)

theorem firstSeen_cons {β : Type} [BEq β] (b : β) (rest : List β) :
    firstSeen (b :: rest) = b :: firstSeen (rest.filter (fun x => !(x == b))) := by
  unfold firstSeen
  simp only [List.length_cons, firstSeenAux]
  congr 1
  exact firstSeenAux_congr rest.length _ _ (List.length_filter_le _ _) (le_refl _)

theorem foldl_min_no_improve (c : DistCol) :
    ∀ (g : List (Nat × NumRow)) (b : Nat × ℚ),
      (∀ q ∈ g, ¬(getDistCol q.2 c < b.2)) →
      g.foldl (fun best p =>
        if getDistCol p.2 c < best.2 then (p.1, getDistCol p.2 c) else best) b = b := by
  intro g
  induction g with
  | nil => intro b _; rfl
  | cons x g' ih =>
    intro b hb
    simp only [List.foldl_cons]
    rw [if_neg (hb x (List.mem_cons_self x g'))]
    exact ih b (fun q hq => hb q (List.mem_cons_of_mem x hq))

theorem find?_congr_mem {α : Type} (p q : α → Bool) :
    ∀ (l : List α), (∀ x ∈ l, p x = q x) → l.find? p = l.find? q := by
  intro l
  induction l with
  | nil => intro _; rfl
  | cons x l' ih =>
    intro h
    rw [List.find?_cons, List.find?_cons, h x (List.mem_cons_self x l')]
    cases hq : q x
    · exact ih (fun y hy => h y (List.mem_cons_of_mem x hy))
    · rfl

theorem keepMinRow_exists (c : DistCol) :
    ∀ (g : List (Nat × NumRow)), g ≠ [] →
      ∃ p ∈ g, ∀ q ∈ g, getDistCol p.2 c ≤ getDistCol q.2 c := by
  intro g
  induction g with
  | nil => intro h; exact absurd rfl h
  | cons a rest ih =>
    intro _
    rcases Decidable.em (rest = []) with hr | hr
    · subst hr
      refine ⟨a, List.mem_cons_self a [], ?_⟩
      intro q hq
      simp only [List.mem_singleton] at hq
      subst hq
      exact le_refl _
    · obtain ⟨p', hp'mem, hp'min⟩ := ih hr
      by_cases hle : getDistCol a.2 c ≤ getDistCol p'.2 c
      · refine ⟨a, List.mem_cons_self a rest, ?_⟩
        intro q hq
        rcases List.mem_cons.mp hq with hq | hq
        · subst hq; exact le_refl _
        · exact le_trans hle (hp'min q hq)
      · refine ⟨p', List.mem_cons_of_mem a hp'mem, ?_⟩
        intro q hq
        rcases List.mem_cons.mp hq with hq | hq
        · subst hq; exact le_of_lt (lt_of_not_le hle)
        · exact hp'min q hq

theorem keepMinRow_some (c : DistCol) (g : List (Nat × NumRow)) (hg : g ≠ []) :
    ∃ p, keepMinRow c g = some p ∧ p ∈ g ∧
      ∀ q ∈ g, getDistCol p.2 c ≤ getDistCol q.2 c := by
  obtain ⟨p0, hp0, hmin0⟩ := keepMinRow_exists c g hg
  have hex : ∃ x ∈ g, (fun p => decide (∀ q ∈ g, getDistCol p.2 c ≤ getDistCol q.2 c)) x :=
    ⟨p0, hp0, by simpa using hmin0⟩
  obtain ⟨p, hp⟩ := Option.isSome_iff_exists.mp (List.find?_isSome.mpr hex)
  refine ⟨p, hp, List.mem_of_find?_eq_some hp, ?_⟩
  have := List.find?_some hp
  simpa using this

/-- Restricting the minimal-row predicate from `a :: g'` to `g'` does not
change it on the members of `g'` when some member of `g'` beats `a`. -/
theorem keepMin_pred_congr (c : DistCol) (a : Nat × NumRow) (g' : List (Nat × NumRow))
    (w : Nat × NumRow) (hw : w ∈ g') (hwlt : getDistCol w.2 c < getDistCol a.2 c) :
    ∀ x ∈ g', (decide (∀ q ∈ g', getDistCol x.2 c ≤ getDistCol q.2 c) : Bool) =
      decide (∀ q ∈ a :: g', getDistCol x.2 c ≤ getDistCol q.2 c) := by
  intro x hx
  rcases Decidable.em (∀ q ∈ g', getDistCol x.2 c ≤ getDistCol q.2 c) with hq | hq
  · have hxa : getDistCol x.2 c ≤ getDistCol a.2 c :=
      le_of_lt (lt_of_le_of_lt (hq w hw) hwlt)
    have hall : ∀ q ∈ a :: g', getDistCol x.2 c ≤ getDistCol q.2 c := by
      intro q hqq
      rcases List.mem_cons.mp hqq with h | h
      · subst h
        exact hxa
      · exact hq q h
    rw [decide_eq_true hq, decide_eq_true hall]
  · have hnall : ¬(∀ q ∈ a :: g', getDistCol x.2 c ≤ getDistCol q.2 c) := by
      intro hcon
      exact hq (fun q hqq => hcon q (List.mem_cons_of_mem a hqq))
    rw [decide_eq_false hq, decide_eq_false hnall]

/-- The index/value fold of `idxmin` lands on the first row attaining the
minimum whenever the seed value is beaten somewhere in the list. -/
theorem foldl_min_finds_first (c : DistCol) :
    ∀ (g : List (Nat × NumRow)) (b : Nat × ℚ) (p : Nat × NumRow),
      keepMinRow c g = some p → getDistCol p.2 c < b.2 →
      g.foldl (fun best x =>
        if getDistCol x.2 c < best.2 then (x.1, getDistCol x.2 c) else best) b =
        (p.1, getDistCol p.2 c) := by
  intro g
  induction g with
  | nil => intro b p hp _; exact absurd hp (by simp [keepMinRow])
  | cons a g' ih =>
    intro b p hp hlt
    unfold keepMinRow at hp
    rw [List.find?_cons] at hp
    by_cases hpa : (∀ q ∈ a :: g', getDistCol a.2 c ≤ getDistCol q.2 c)
    · simp only [decide_eq_true hpa] at hp
      obtain rfl : a = p := by injection hp
      simp only [List.foldl_cons]
      rw [if_pos hlt]
      exact foldl_min_no_improve c g' (a.1, getDistCol a.2 c)
        (fun q hq => not_lt_of_le (hpa q (List.mem_cons_of_mem a hq)))
    · simp only [decide_eq_false hpa] at hp
      push_neg at hpa
      obtain ⟨w, hw, hwlt⟩ := hpa
      rcases List.mem_cons.mp hw with hw' | hw'
      · subst hw'
        exact absurd hwlt (by simp)
      · have hp' : keepMinRow c g' = some p := by
          unfold keepMinRow
          rw [← hp]
          exact find?_congr_mem _ _ g' (keepMin_pred_congr c a g' w hw' hwlt)
        have hplt : getDistCol p.2 c < getDistCol a.2 c := by
          obtain ⟨q', hq', hq'mem, hq'min⟩ := keepMinRow_some c g' (by
            intro hnil
            rw [hnil] at hp'
            exact absurd hp' (by simp [keepMinRow]))
          have hpq : q' = p := by
            rw [hp'] at hq'
            injection hq' with h
            exact h.symm
          rw [← hpq]
          exact lt_of_le_of_lt (hq'min w hw') hwlt
        simp only [List.foldl_cons]
        by_cases hab : getDistCol a.2 c < b.2
        · rw [if_pos hab]
          exact ih (a.1, getDistCol a.2 c) p hp' hplt
        · rw [if_neg hab]
          exact ih b p hp' hlt

/-- `idxmin` (modelled by `firstMinIdx`) returns the index of the first
minimal-metric row, the row `keepMinRow` selects. -/
theorem firstMinIdx_eq_keepMinRow (c : DistCol) (g : List (Nat × NumRow)) (hg : g ≠ []) :
    ∃ p, keepMinRow c g = some p ∧ firstMinIdx c g = p.1 ∧ p ∈ g ∧
      ∀ q ∈ g, getDistCol p.2 c ≤ getDistCol q.2 c := by
  obtain ⟨p, hp, hpmem, hpmin⟩ := keepMinRow_some c g hg
  refine ⟨p, hp, ?_, hpmem, hpmin⟩
  cases g with
  | nil => exact absurd rfl hg
  | cons a rest =>
    rcases a with ⟨ai, ar⟩
    rw [firstMinIdx]
    by_cases hpa : (∀ q ∈ (ai, ar) :: rest, getDistCol (ai, ar).2 c ≤ getDistCol q.2 c)
    · have hkeep : keepMinRow c ((ai, ar) :: rest) = some (ai, ar) := by
        unfold keepMinRow
        rw [List.find?_cons]
        simp only [decide_eq_true hpa]
      have hpeq : p = (ai, ar) := by
        rw [hp] at hkeep
        injection hkeep
      rw [foldl_min_no_improve c rest (ai, getDistCol ar c)
        (fun q hq => not_lt_of_le (hpa q (List.mem_cons_of_mem (ai, ar) hq)))]
      rw [hpeq]
    · have hlt : getDistCol p.2 c < getDistCol (ai, ar).2 c := by
        push_neg at hpa
        obtain ⟨w, hw, hwlt⟩ := hpa
        rcases List.mem_cons.mp hw with hw' | hw'
        · exact absurd hwlt (by simp [hw'])
        · exact lt_of_le_of_lt (hpmin w (List.mem_cons_of_mem (ai, ar) hw')) hwlt
      have hwit : ∃ w ∈ rest, getDistCol w.2 c < getDistCol (ai, ar).2 c := by
        rcases List.mem_cons.mp hpmem with h | h
        · exact absurd hlt (by simp [h])
        · exact ⟨p, h, hlt⟩
      obtain ⟨w, hw', hwlt⟩ := hwit
      have hp' : keepMinRow c rest = some p := by
        unfold keepMinRow
        unfold keepMinRow at hp
        rw [List.find?_cons] at hp
        simp only [decide_eq_false hpa] at hp
        rw [← hp]
        exact find?_congr_mem _ _ rest (keepMin_pred_congr c (ai, ar) rest w hw' hwlt)
      rw [foldl_min_finds_first c rest (ai, getDistCol ar c) p hp' hlt]

theorem dropWhile_head_false {α : Type} (p : α → Bool) :
    ∀ (l : List α) (x : α) (xs : List α), l.dropWhile p = x :: xs → p x = false := by
  intro l
  induction l with
  | nil => intro x xs h; exact absurd h (by simp)
  | cons a l' ih =>
    intro x xs h
    rw [List.dropWhile_cons] at h
    by_cases ha : p a = true
    · rw [if_pos ha] at h
      exact ih x xs h
    · rw [if_neg ha] at h
      injection h with h1 h2
      rw [← h1]
      exact Bool.of_not_eq_true ha

theorem pair_ne_of_le_ne_le (a b y : Nat × Nat)
    (h1 : pairLe a b) (h2 : a ≠ b) (h3 : pairLe b y) : a ≠ y := by
  rcases a with ⟨a1, a2⟩
  rcases b with ⟨b1, b2⟩
  rcases y with ⟨y1, y2⟩
  intro he
  injection he with e1 e2
  subst e1
  subst e2
  simp only [pairLe] at h1 h3
  have h2' : ¬(a1 = b1 ∧ a2 = b2) := by
    rintro ⟨x1, x2⟩
    exact h2 (by rw [x1, x2])
  omega

/-- A run of rows whose keys are all already registered is skipped by the
`donors_acceptors` check. -/
theorem reduceLoop_skip_run (c : DistCol) (full : List (Nat × NumRow)) :
    ∀ (g l : List (Nat × NumRow)) (seen : List String),
      (∀ q ∈ g, rowKey q.2 ∈ seen) →
      reduceLoop c full (g ++ l) seen = reduceLoop c full l seen := by
  intro g
  induction g with
  | nil => intro l seen _; rfl
  | cons q g' ih =>
    intro l seen hq
    rcases q with ⟨i, r⟩
    rw [List.cons_append, reduceLoop]
    have hc : seen.contains (rowKey r) = true :=
      List.elem_iff.mpr (hq (i, r) (List.mem_cons_self _ _))
    rw [if_pos hc]
    exact ih l seen (fun x hx => hq x (List.mem_cons_of_mem _ hx))

/-- The `donors_acceptors` loop on a pair-sorted table: each distinct pair,
in first-seen order, contributes the non-minimal indices of its group to
`idx_to_remove` and its group size to the counts list. -/
theorem reduceLoop_groups (c : DistCol) (rows : List (Nat × NumRow))
    (hsorted : rows.Pairwise (fun p q => pairLe (pairOf p) (pairOf q)))
    (hkey : ∀ p ∈ rows, ∀ q ∈ rows, (rowKey p.2 = rowKey q.2 ↔ pairOf p = pairOf q)) :
    ∀ (n : Nat) (l : List (Nat × NumRow)) (seen : List String),
      l.length ≤ n →
      (∃ pre, rows = pre ++ l ∧ ∀ p ∈ pre, ∀ q ∈ l, pairOf p ≠ pairOf q) →
      (∀ q ∈ l, rowKey q.2 ∉ seen) →
      reduceLoop c rows l seen =
        ((firstSeen (l.map pairOf)).flatMap (fun pr =>
            ((rows.filter (fun p => pairOf p == pr)).map Prod.fst).filter
              (fun j => j ≠ firstMinIdx c (rows.filter (fun p => pairOf p == pr)))),
          (firstSeen (l.map pairOf)).map (fun pr =>
            (rows.filter (fun p => pairOf p == pr)).length)) := by
  intro n
  induction n with
  | zero =>
    intro l seen hlen _ _
    have hnil : l = [] := List.length_eq_zero.mp (Nat.le_zero.mp hlen)
    subst hnil
    rfl
  | succ n ih =>
    intro l seen hlen hsuffix hseen
    obtain ⟨pre, hpre_eq, hpre_ne⟩ := hsuffix
    cases l with
    | nil => rfl
    | cons q0 l0 =>
      rcases q0 with ⟨i0, r0⟩
      have hsplit : l0.takeWhile (fun p => pairOf p == pairOf (i0, r0)) ++
          l0.dropWhile (fun p => pairOf p == pairOf (i0, r0)) = l0 :=
        List.takeWhile_append_dropWhile _ _
      set pr := pairOf (i0, r0) with hprdef
      set G' := l0.takeWhile (fun p => pairOf p == pr) with hG'def
      set rest := l0.dropWhile (fun p => pairOf p == pr) with hrestdef
      have hmeml : ∀ x ∈ (i0, r0) :: l0, x ∈ rows := by
        intro x hx
        rw [hpre_eq]
        exact List.mem_append_right pre hx
      have hsubl : ((i0, r0) :: l0).Sublist rows := by
        rw [hpre_eq]
        exact (List.suffix_append pre _).sublist
      have hsortl : ((i0, r0) :: l0).Pairwise (fun p q => pairLe (pairOf p) (pairOf q)) :=
        List.Pairwise.sublist hsubl hsorted
      have hG'pair : ∀ x ∈ G', pairOf x = pr := by
        intro x hx
        have hx' := List.mem_takeWhile_imp hx
        exact beq_iff_eq.mp (by simpa using hx')
      have hG'subl0 : ∀ x ∈ G', x ∈ l0 := by
        intro x hx
        exact (List.takeWhile_sublist _).mem hx
      have hrestsubl0 : ∀ x ∈ rest, x ∈ l0 := by
        intro x hx
        exact (List.dropWhile_sublist _).mem hx
      have hrest_ne : ∀ y ∈ rest, pairOf y ≠ pr := by
        cases hr : rest with
        | nil =>
          intro y hy
          exact absurd hy (List.not_mem_nil y)
        | cons s0 rest' =>
          have hdrop : l0.dropWhile (fun p => pairOf p == pr) = s0 :: rest' := by
            rw [← hrestdef]
            exact hr
          have hs0f : (fun p => pairOf p == pr) s0 = false :=
            dropWhile_head_false _ l0 s0 rest' hdrop
          have hs0ne : pairOf s0 ≠ pr := by
            intro he
            rw [show (fun p => pairOf p == pr) s0 = (pairOf s0 == pr) from rfl,
              he, beq_self_eq_true] at hs0f
            exact absurd hs0f (by simp)
          have hs0rest : s0 ∈ rest := by
            rw [hr]
            exact List.mem_cons_self s0 rest'
          have hs0l0 : s0 ∈ l0 := hrestsubl0 s0 hs0rest
          have hle0 : pairLe pr (pairOf s0) :=
            (List.pairwise_cons.mp hsortl).1 s0 hs0l0
          have hrestpw : (s0 :: rest').Pairwise (fun p q => pairLe (pairOf p) (pairOf q)) := by
            refine List.Pairwise.sublist ?_ hsortl
            refine List.Sublist.trans ?_ (List.sublist_cons_self (i0, r0) l0)
            rw [← hdrop]
            exact List.dropWhile_sublist _
          intro y hy
          rcases List.mem_cons.mp hy with rfl | hy'
          · exact hs0ne
          · have hle1 : pairLe (pairOf s0) (pairOf y) :=
              (List.pairwise_cons.mp hrestpw).1 y hy'
            exact fun he =>
              pair_ne_of_le_ne_le pr (pairOf s0) (pairOf y) hle0 (Ne.symm hs0ne) hle1 he.symm
      have hfG : rows.filter (fun p => pairOf p == pr) = (i0, r0) :: G' := by
        rw [hpre_eq, List.filter_append]
        have h1 : pre.filter (fun p => pairOf p == pr) = [] := by
          rw [List.filter_eq_nil_iff]
          intro p hp
          have := hpre_ne p hp (i0, r0) (List.mem_cons_self _ _)
          simp [this]
        have h2 : ((i0, r0) :: l0).filter (fun p => pairOf p == pr) = (i0, r0) :: G' := by
          rw [List.filter_cons, if_pos (by simp [hprdef])]
          congr 1
          conv_lhs => rw [← hsplit]
          rw [List.filter_append]
          have hG'f : G'.filter (fun p => pairOf p == pr) = G' := by
            rw [List.filter_eq_self]
            intro x hx
            simp [hG'pair x hx]
          have hrf : rest.filter (fun p => pairOf p == pr) = [] := by
            rw [List.filter_eq_nil_iff]
            intro x hx
            simp [hrest_ne x hx]
          rw [hG'f, hrf, List.append_nil]
        rw [h1, h2, List.nil_append]
      have hcond : ¬(seen.contains (rowKey r0) = true) := by
        intro hc
        exact hseen (i0, r0) (List.mem_cons_self _ _) (List.elem_iff.mp hc)
      have htmp : rows.filter (fun p =>
          p.2.donorPosition == r0.donorPosition &&
            p.2.acceptorPosition == r0.acceptorPosition) =
          rows.filter (fun p => pairOf p == pr) :=
        List.filter_congr (fun x _ => rfl)
      have hskip : ∀ q ∈ G', rowKey q.2 ∈ seen ++ [rowKey r0] := by
        intro q hq
        have hqrows : q ∈ rows := hmeml q (List.mem_cons_of_mem _ (hG'subl0 q hq))
        have hhead : (i0, r0) ∈ rows := hmeml _ (List.mem_cons_self _ _)
        have : rowKey q.2 = rowKey r0 := (hkey q hqrows (i0, r0) hhead).mpr (hG'pair q hq)
        rw [this]
        exact List.mem_append_right seen (List.mem_singleton.mpr rfl)
      have hlen' : rest.length ≤ n := by
        have h1 : rest.length ≤ l0.length := (List.dropWhile_sublist _).length_le
        have h2 : l0.length + 1 ≤ n + 1 := by simpa using hlen
        omega
      have hsuffix' : ∃ pre', rows = pre' ++ rest ∧
          ∀ p ∈ pre', ∀ q ∈ rest, pairOf p ≠ pairOf q := by
        refine ⟨pre ++ (i0, r0) :: G', ?_, ?_⟩
        · rw [hpre_eq]
          conv_lhs => rw [show ((i0, r0) :: l0) = (i0, r0) :: (G' ++ rest) from by
            rw [hsplit]]
          simp
        · intro p hp q hq
          rcases List.mem_append.mp hp with hp' | hp'
          · exact hpre_ne p hp' q (List.mem_cons_of_mem _ (hrestsubl0 q hq))
          · have hppr : pairOf p = pr := by
              rcases List.mem_cons.mp hp' with rfl | hg
              · rfl
              · exact hG'pair p hg
            rw [hppr]
            exact fun he => hrest_ne q hq he.symm
      have hseen' : ∀ q ∈ rest, rowKey q.2 ∉ seen ++ [rowKey r0] := by
        intro q hq hc
        rcases List.mem_append.mp hc with hc' | hc'
        · exact hseen q (List.mem_cons_of_mem _ (hrestsubl0 q hq)) hc'
        · have hqk : rowKey q.2 = rowKey r0 := List.mem_singleton.mp hc'
          have hqrows : q ∈ rows := hmeml q (List.mem_cons_of_mem _ (hrestsubl0 q hq))
          have hhead : (i0, r0) ∈ rows := hmeml _ (List.mem_cons_self _ _)
          exact hrest_ne q hq ((hkey q hqrows (i0, r0) hhead).mp hqk)
      have hfs : firstSeen (((i0, r0) :: l0).map pairOf) =
          pr :: firstSeen (rest.map pairOf) := by
        rw [List.map_cons, firstSeen_cons]
        congr 1
        have hmapsplit : l0.map pairOf = G'.map pairOf ++ rest.map pairOf := by
          rw [← hsplit, List.map_append]
        rw [hmapsplit, List.filter_append]
        have hg : (G'.map pairOf).filter (fun x => !(x == pr)) = [] := by
          rw [List.filter_eq_nil_iff]
          intro x hx
          obtain ⟨y, hy, rfl⟩ := List.mem_map.mp hx
          simp [hG'pair y hy]
        have hrkeep : (rest.map pairOf).filter (fun x => !(x == pr)) = rest.map pairOf := by
          rw [List.filter_eq_self]
          intro x hx
          obtain ⟨y, hy, rfl⟩ := List.mem_map.mp hx
          simp [hrest_ne y hy]
        rw [hg, hrkeep, List.nil_append]
      simp only [reduceLoop]
      rw [if_neg hcond, htmp]
      rw [hfs, List.flatMap_cons, List.map_cons]
      rw [← hsplit]
      rw [reduceLoop_skip_run c rows G' rest (seen ++ [rowKey r0]) hskip]
      rw [ih rest (seen ++ [rowKey r0]) hlen' hsuffix' hseen']

theorem firstSeenAux_subset {β : Type} [BEq β] :
    ∀ (n : Nat) (l : List β) (x : β), x ∈ firstSeenAux n l → x ∈ l := by
  intro n
  induction n with
  | zero =>
    intro l x h
    exact absurd h (by cases l <;> simp [firstSeenAux])
  | succ n ih =>
    intro l x h
    cases l with
    | nil => exact absurd h (by simp [firstSeenAux])
    | cons b rest =>
      simp only [firstSeenAux] at h
      rcases List.mem_cons.mp h with rfl | h'
      · exact List.mem_cons_self _ _
      · exact List.mem_cons_of_mem b (List.mem_of_mem_filter (ih _ x h'))

theorem mem_firstSeenAux_of_mem {β : Type} [BEq β] [LawfulBEq β] :
    ∀ (n : Nat) (l : List β) (x : β), l.length ≤ n → x ∈ l → x ∈ firstSeenAux n l := by
  intro n
  induction n with
  | zero =>
    intro l x hlen hx
    have : l = [] := List.length_eq_zero.mp (Nat.le_zero.mp hlen)
    subst this
    exact absurd hx (List.not_mem_nil x)
  | succ n ih =>
    intro l x hlen hx
    cases l with
    | nil => exact absurd hx (List.not_mem_nil x)
    | cons b rest =>
      simp only [firstSeenAux]
      by_cases hb : x = b
      · subst hb
        exact List.mem_cons_self _ _
      · rcases List.mem_cons.mp hx with rfl | hx'
        · exact absurd rfl hb
        · refine List.mem_cons_of_mem b (ih _ x ?_ ?_)
          · exact le_trans (List.length_filter_le _ _) (by simpa using hlen)
          · exact List.mem_filter.mpr ⟨hx', by simp [hb]⟩

theorem filter_eq_singleton_of_unique {α : Type} (p : α → Bool) (a : α) :
    ∀ (l : List α), a ∈ l → l.Nodup → (∀ x ∈ l, (p x = true ↔ x = a)) →
      l.filter p = [a] := by
  intro l
  induction l with
  | nil => intro ha _ _; exact absurd ha (List.not_mem_nil a)
  | cons b l' ih =>
    intro ha hnd hp
    by_cases hb : b = a
    · subst hb
      rw [List.filter_cons, if_pos ((hp b (List.mem_cons_self _ _)).mpr rfl)]
      have hempty : l'.filter p = [] := by
        rw [List.filter_eq_nil_iff]
        intro x hx hpx
        have : x = b := (hp x (List.mem_cons_of_mem b hx)).mp hpx
        subst this
        exact (List.nodup_cons.mp hnd).1 hx
      rw [hempty]
    · rw [List.filter_cons, if_neg (fun hpb => hb ((hp b (List.mem_cons_self _ _)).mp hpb))]
      refine ih ?_ (List.nodup_cons.mp hnd).2 ?_
      · rcases List.mem_cons.mp ha with rfl | h
        · exact absurd rfl hb
        · exact h
      · intro x hx
        exact hp x (List.mem_cons_of_mem b hx)

theorem filterMap_isSome_zip_map {β γ δ : Type} (f : β → Option γ) (g : β → Nat)
    (h : γ → Nat → δ) :
    ∀ (fs : List β), (∀ x ∈ fs, (f x).isSome) →
      (fs.filterMap f).length = (fs.map g).length ∧
      ((fs.filterMap f).zip (fs.map g)).map (fun z => h z.1 z.2) =
        fs.filterMap (fun x => (f x).map (fun y => h y (g x))) := by
  intro fs
  induction fs with
  | nil => intro _; exact ⟨rfl, rfl⟩
  | cons x fs' ih =>
    intro hsome
    obtain ⟨y, hy⟩ := Option.isSome_iff_exists.mp (hsome x (List.mem_cons_self _ _))
    obtain ⟨ihlen, ihzip⟩ := ih (fun z hz => hsome z (List.mem_cons_of_mem x hz))
    constructor
    · rw [List.filterMap_cons, hy, List.map_cons]
      simp only [List.length_cons, ihlen]
    · rw [List.filterMap_cons, hy, List.map_cons, List.zip_cons_cons, List.map_cons,
        List.filterMap_cons]
      rw [show (f x).map (fun y' => h y' (g x)) = some (h y (g x)) from by rw [hy]; rfl]
      rw [ihzip]

/-- Rows surviving `df.drop(idx_to_remove)` on a pair-sorted table with
distinct index labels: exactly the first minimal-metric row of each group,
in first-seen group order. -/
theorem remaining_rows_groups (c : DistCol) (rows : List (Nat × NumRow))
    (hsorted : rows.Pairwise (fun p q => pairLe (pairOf p) (pairOf q)))
    (hidx : (rows.map Prod.fst).Nodup) (R : List Nat)
    (hR : R = (firstSeen (rows.map pairOf)).flatMap (fun pr =>
      ((rows.filter (fun p => pairOf p == pr)).map Prod.fst).filter
        (fun j => j ≠ firstMinIdx c (rows.filter (fun p => pairOf p == pr))))) :
    ∀ (n : Nat) (l : List (Nat × NumRow)),
      l.length ≤ n →
      (∃ pre, rows = pre ++ l ∧ ∀ p ∈ pre, ∀ q ∈ l, pairOf p ≠ pairOf q) →
      l.filter (fun p => !(R.contains p.1)) =
        (firstSeen (l.map pairOf)).filterMap (fun pr =>
          keepMinRow c (rows.filter (fun p => pairOf p == pr))) := by
  intro n
  induction n with
  | zero =>
    intro l hlen _
    have hnil : l = [] := List.length_eq_zero.mp (Nat.le_zero.mp hlen)
    subst hnil
    rfl
  | succ n ih =>
    intro l hlen hsuffix
    obtain ⟨pre, hpre_eq, hpre_ne⟩ := hsuffix
    cases l with
    | nil => rfl
    | cons q0 l0 =>
      rcases q0 with ⟨i0, r0⟩
      have hsplit : l0.takeWhile (fun p => pairOf p == pairOf (i0, r0)) ++
          l0.dropWhile (fun p => pairOf p == pairOf (i0, r0)) = l0 :=
        List.takeWhile_append_dropWhile _ _
      set pr := pairOf (i0, r0) with hprdef
      set G' := l0.takeWhile (fun p => pairOf p == pr) with hG'def
      set rest := l0.dropWhile (fun p => pairOf p == pr) with hrestdef
      have hmeml : ∀ x ∈ (i0, r0) :: l0, x ∈ rows := by
        intro x hx
        rw [hpre_eq]
        exact List.mem_append_right pre hx
      have hsubl : ((i0, r0) :: l0).Sublist rows := by
        rw [hpre_eq]
        exact (List.suffix_append pre _).sublist
      have hsortl : ((i0, r0) :: l0).Pairwise (fun p q => pairLe (pairOf p) (pairOf q)) :=
        List.Pairwise.sublist hsubl hsorted
      have hG'pair : ∀ x ∈ G', pairOf x = pr := by
        intro x hx
        have hx' := List.mem_takeWhile_imp hx
        exact beq_iff_eq.mp (by simpa using hx')
      have hG'subl0 : ∀ x ∈ G', x ∈ l0 := by
        intro x hx
        exact (List.takeWhile_sublist _).mem hx
      have hrestsubl0 : ∀ x ∈ rest, x ∈ l0 := by
        intro x hx
        exact (List.dropWhile_sublist _).mem hx
      have hrest_ne : ∀ y ∈ rest, pairOf y ≠ pr := by
        cases hr : rest with
        | nil =>
          intro y hy
          exact absurd hy (List.not_mem_nil y)
        | cons s0 rest' =>
          have hdrop : l0.dropWhile (fun p => pairOf p == pr) = s0 :: rest' := by
            rw [← hrestdef]
            exact hr
          have hs0f : (fun p => pairOf p == pr) s0 = false :=
            dropWhile_head_false _ l0 s0 rest' hdrop
          have hs0ne : pairOf s0 ≠ pr := by
            intro he
            rw [show (fun p => pairOf p == pr) s0 = (pairOf s0 == pr) from rfl,
              he, beq_self_eq_true] at hs0f
            exact absurd hs0f (by simp)
          have hs0rest : s0 ∈ rest := by
            rw [hr]
            exact List.mem_cons_self s0 rest'
          have hs0l0 : s0 ∈ l0 := hrestsubl0 s0 hs0rest
          have hle0 : pairLe pr (pairOf s0) :=
            (List.pairwise_cons.mp hsortl).1 s0 hs0l0
          have hrestpw : (s0 :: rest').Pairwise (fun p q => pairLe (pairOf p) (pairOf q)) := by
            refine List.Pairwise.sublist ?_ hsortl
            refine List.Sublist.trans ?_ (List.sublist_cons_self (i0, r0) l0)
            rw [← hdrop]
            exact List.dropWhile_sublist _
          intro y hy
          rcases List.mem_cons.mp hy with rfl | hy'
          · exact hs0ne
          · have hle1 : pairLe (pairOf s0) (pairOf y) :=
              (List.pairwise_cons.mp hrestpw).1 y hy'
            exact fun he =>
              pair_ne_of_le_ne_le pr (pairOf s0) (pairOf y) hle0 (Ne.symm hs0ne) hle1 he.symm
      have hfG : rows.filter (fun p => pairOf p == pr) = (i0, r0) :: G' := by
        rw [hpre_eq, List.filter_append]
        have h1 : pre.filter (fun p => pairOf p == pr) = [] := by
          rw [List.filter_eq_nil_iff]
          intro p hp
          have := hpre_ne p hp (i0, r0) (List.mem_cons_self _ _)
          simp [this]
        have h2 : ((i0, r0) :: l0).filter (fun p => pairOf p == pr) = (i0, r0) :: G' := by
          rw [List.filter_cons, if_pos (by simp [hprdef])]
          congr 1
          conv_lhs => rw [← hsplit]
          rw [List.filter_append]
          have hG'f : G'.filter (fun p => pairOf p == pr) = G' := by
            rw [List.filter_eq_self]
            intro x hx
            simp [hG'pair x hx]
          have hrf : rest.filter (fun p => pairOf p == pr) = [] := by
            rw [List.filter_eq_nil_iff]
            intro x hx
            simp [hrest_ne x hx]
          rw [hG'f, hrf, List.append_nil]
        rw [h1, h2, List.nil_append]
      have hGne : rows.filter (fun p => pairOf p == pr) ≠ [] := by
        rw [hfG]
        simp
      obtain ⟨pmin, hpmin_eq, hpmin_idx, hpmin_mem, hpmin_min⟩ :=
        firstMinIdx_eq_keepMinRow c (rows.filter (fun p => pairOf p == pr)) hGne
      have hrows_nd : rows.Nodup := List.Nodup.of_map _ hidx
      have hinj : ∀ p ∈ rows, ∀ q ∈ rows, p.1 = q.1 → p = q := fun p hp q hq he =>
        List.inj_on_of_nodup_map hidx hp hq he
      have hpminrows : pmin ∈ rows := List.mem_of_mem_filter hpmin_mem
      have hmemR : ∀ p ∈ rows.filter (fun x => pairOf x == pr), (p.1 ∈ R ↔ p ≠ pmin) := by
        intro p hp
        have hprows : p ∈ rows := List.mem_of_mem_filter hp
        have hp_pr : pairOf p = pr := beq_iff_eq.mp (by simpa using (List.mem_filter.mp hp).2)
        constructor
        · intro hRmem
          rw [hR] at hRmem
          obtain ⟨pr', hpr'fs, hmem⟩ := List.mem_flatMap.mp hRmem
          obtain ⟨hmm, hne⟩ := List.mem_filter.mp hmem
          obtain ⟨q, hq, hq1⟩ := List.mem_map.mp hmm
          have hqrows : q ∈ rows := List.mem_of_mem_filter hq
          have hqp : q = p := hinj q hqrows p hprows hq1
          subst hqp
          have hq_pr' : pairOf q = pr' := beq_iff_eq.mp (by simpa using (List.mem_filter.mp hq).2)
          have hpr_eq : pr' = pr := hq_pr'.symm.trans hp_pr
          intro hq_pmin
          have hne' : q.1 ≠ firstMinIdx c (rows.filter (fun x => pairOf x == pr')) :=
            of_decide_eq_true (by simpa using hne)
          apply hne'
          rw [hpr_eq, hpmin_idx, hq_pmin]
        · intro hne_pmin
          rw [hR]
          apply List.mem_flatMap.mpr
          refine ⟨pr, ?_, ?_⟩
          · have hmemmap : pr ∈ rows.map pairOf :=
              List.mem_map.mpr ⟨(i0, r0), hmeml _ (List.mem_cons_self _ _), rfl⟩
            exact mem_firstSeenAux_of_mem (rows.map pairOf).length _ pr (le_refl _) hmemmap
          · apply List.mem_filter.mpr
            refine ⟨List.mem_map.mpr ⟨p, hp, rfl⟩, ?_⟩
            apply decide_eq_true
            rw [hpmin_idx]
            intro he
            exact hne_pmin (hinj p hprows pmin hpminrows he)
      have hGp_filter : ((i0, r0) :: G').filter (fun p => !(R.contains p.1)) = [pmin] := by
        rw [← hfG]
        refine filter_eq_singleton_of_unique _ pmin _ hpmin_mem
          (List.Nodup.filter _ hrows_nd) ?_
        intro x hx
        constructor
        · intro hpx
          have hnotin : x.1 ∉ R := by
            intro hmem
            have h2 : R.contains x.1 = true := List.elem_iff.mpr hmem
            rw [h2] at hpx
            exact absurd hpx (by decide)
          by_contra hne
          exact hnotin ((hmemR x hx).mpr hne)
        · intro hxe
          rw [hxe]
          have hnot : pmin.1 ∉ R := fun hmem => ((hmemR pmin hpmin_mem).mp hmem) rfl
          cases hcont : R.contains pmin.1 with
          | false => decide
          | true => exact absurd (List.elem_iff.mp hcont) hnot
      have hlen' : rest.length ≤ n := by
        have h1 : rest.length ≤ l0.length := (List.dropWhile_sublist _).length_le
        have h2 : l0.length + 1 ≤ n + 1 := by simpa using hlen
        omega
      have hsuffix' : ∃ pre', rows = pre' ++ rest ∧
          ∀ p ∈ pre', ∀ q ∈ rest, pairOf p ≠ pairOf q := by
        refine ⟨pre ++ (i0, r0) :: G', ?_, ?_⟩
        · rw [hpre_eq]
          conv_lhs => rw [show ((i0, r0) :: l0) = (i0, r0) :: (G' ++ rest) from by
            rw [hsplit]]
          simp
        · intro p hp q hq
          rcases List.mem_append.mp hp with hp' | hp'
          · exact hpre_ne p hp' q (List.mem_cons_of_mem _ (hrestsubl0 q hq))
          · have hppr : pairOf p = pr := by
              rcases List.mem_cons.mp hp' with rfl | hg
              · rfl
              · exact hG'pair p hg
            rw [hppr]
            exact fun he => hrest_ne q hq he.symm
      have hfs : firstSeen (((i0, r0) :: l0).map pairOf) =
          pr :: firstSeen (rest.map pairOf) := by
        rw [List.map_cons, firstSeen_cons]
        congr 1
        have hmapsplit : l0.map pairOf = G'.map pairOf ++ rest.map pairOf := by
          rw [← hsplit, List.map_append]
        rw [hmapsplit, List.filter_append]
        have hg : (G'.map pairOf).filter (fun x => !(x == pr)) = [] := by
          rw [List.filter_eq_nil_iff]
          intro x hx
          obtain ⟨y, hy, rfl⟩ := List.mem_map.mp hx
          simp [hG'pair y hy]
        have hrkeep : (rest.map pairOf).filter (fun x => !(x == pr)) = rest.map pairOf := by
          rw [List.filter_eq_self]
          intro x hx
          obtain ⟨y, hy, rfl⟩ := List.mem_map.mp hx
          simp [hrest_ne y hy]
        rw [hg, hrkeep, List.nil_append]
      have hfm : (pr :: firstSeen (rest.map pairOf)).filterMap (fun pr =>
          keepMinRow c (rows.filter (fun p => pairOf p == pr))) =
          pmin :: (firstSeen (rest.map pairOf)).filterMap (fun pr =>
            keepMinRow c (rows.filter (fun p => pairOf p == pr))) := by
        simp only [List.filterMap_cons, hpmin_eq]
      rw [hfs, hfm]
      conv_lhs => rw [show ((i0, r0) :: l0) = ((i0, r0) :: G') ++ rest from by
        rw [List.cons_append, hsplit]]
      rw [List.filter_append, hGp_filter, ih rest hlen' hsuffix']
      rfl

/-- C6: on a ContactStats table whose rows are sorted so that equal
(donor position, acceptor position) groups are contiguous, whose
donor-acceptor combination strings identify the position pairs, and whose
index labels are distinct, the Contact Aggregator emits exactly one row per
unique position pair in first-seen order, keeping the first row attaining
the group's minimal metric value and attaching the group's row count as
"number of contacts".  (The original universal claim fails on unsorted
tables because the counts list is assigned positionally, see the
counterexample.) -/
theorem c6_sorted_aggregation (c : DistCol) (rows : List (Nat × NumRow))
    (hsorted : rows.Pairwise (fun p q => pairLe (pairOf p) (pairOf q)))
    (hkey : ∀ p ∈ rows, ∀ q ∈ rows, (rowKey p.2 = rowKey q.2 ↔ pairOf p = pairOf q))
    (hidx : (rows.map Prod.fst).Nodup) :
    reduceRows c rows = .ok (aggregateSpec c rows) := by
  have hloop := reduceLoop_groups c rows hsorted hkey rows.length rows [] (le_refl _)
    ⟨[], rfl, by simp⟩ (by simp)
  have h1 : (reduceLoop c rows rows []).1 =
      (firstSeen (rows.map pairOf)).flatMap (fun pr =>
        ((rows.filter (fun p => pairOf p == pr)).map Prod.fst).filter
          (fun j => j ≠ firstMinIdx c (rows.filter (fun p => pairOf p == pr)))) := by
    rw [hloop]
  have h2 : (reduceLoop c rows rows []).2 =
      (firstSeen (rows.map pairOf)).map (fun pr =>
        (rows.filter (fun p => pairOf p == pr)).length) := by
    rw [hloop]
  have hrem := remaining_rows_groups c rows hsorted hidx _ rfl rows.length rows (le_refl _)
    ⟨[], rfl, by simp⟩
  have hsome : ∀ pr ∈ firstSeen (rows.map pairOf),
      (keepMinRow c (rows.filter (fun p => pairOf p == pr))).isSome := by
    intro pr hpr
    have hmem : pr ∈ rows.map pairOf := firstSeenAux_subset _ _ pr hpr
    obtain ⟨q, hq, rfl⟩ := List.mem_map.mp hmem
    have hqf : q ∈ rows.filter (fun p => pairOf p == pairOf q) :=
      List.mem_filter.mpr ⟨hq, by simp⟩
    obtain ⟨p, hp, _, _⟩ := keepMinRow_some c _ (List.ne_nil_of_mem hqf)
    rw [hp]
    rfl
  obtain ⟨hlen, hzip⟩ := filterMap_isSome_zip_map
    (fun pr => keepMinRow c (rows.filter (fun p => pairOf p == pr)))
    (fun pr => (rows.filter (fun p => pairOf p == pr)).length)
    (fun q n => (q.1, q.2, n))
    (firstSeen (rows.map pairOf)) hsome
  have hzip' : (((firstSeen (rows.map pairOf)).filterMap (fun pr =>
        keepMinRow c (rows.filter (fun p => pairOf p == pr)))).zip
          ((firstSeen (rows.map pairOf)).map (fun pr =>
            (rows.filter (fun p => pairOf p == pr)).length))).map
        (fun z => (z.1.1, z.1.2, z.2)) =
      (firstSeen (rows.map pairOf)).filterMap (fun pr =>
        (keepMinRow c (rows.filter (fun p => pairOf p == pr))).map
          (fun q => (q.1, q.2, (rows.filter (fun p => pairOf p == pr)).length))) := hzip
  simp only [reduceRows]
  rw [h1, h2, hrem]
  rw [if_pos hlen]
  rw [hzip']
  rfl

theorem c6_sorted_aggregation_witness :
    wRows.Pairwise (fun p q => pairLe (pairOf p) (pairOf q)) ∧
    (∀ p ∈ wRows, ∀ q ∈ wRows, (rowKey p.2 = rowKey q.2 ↔ pairOf p = pairOf q)) ∧
    (wRows.map Prod.fst).Nodup ∧
    reduceRows .sndMean wRows = .ok (aggregateSpec .sndMean wRows) :=
  ⟨by decide, by decide, by decide,
    c6_sorted_aggregation .sndMean wRows (by decide) (by decide) (by decide)⟩
